import Mathlib

/-!
# genapp/template.go — a shallow embedding

The source-code scaffolding engine of `genapp/template.go`: the model registry, the macro
preprocessor of `Model.Source`, the template helper functions bound in `apply_source`, and the
per-file regeneration policy.

Go strings are lists of characters, Go maps are association lists with unique keys, and the
process state touched by the code (filesystem and standard output) is passed explicitly.
Library code that the program calls (`strings`, `path`, `regexp`, `os`, `text/template`) is
modelled next to the function that uses it.
-/

set_option linter.deprecated false
set_option linter.unusedVariables false
set_option maxRecDepth 100000

/-- A Go `string`, as the list of its characters. -/
abbrev GoString := List Char

/-- A Go `map[string]V`: an association list whose keys are unique. -/
abbrev GoMap (V : Type) := AList (fun _ : GoString => V)

/-- Go's `os.FileMode`, as a number. -/
abbrev FileMode := Nat

/-! ## `strings` -/

namespace strings

/-- The scan of `strings.Replace` for a non-empty `old`: at each position, an occurrence of
`old` is replaced by `new` and the scan resumes after it; otherwise one character is copied.
The first argument bounds the number of steps. -/
def replaceAux (old new : GoString) : Nat → GoString → GoString
  | 0, s => s
  | fuel + 1, s =>
    if old.isPrefixOf s then new ++ replaceAux old new fuel (s.drop old.length)
    else
      match s with
      | [] => []
      | c :: cs => c :: replaceAux old new fuel cs

/-- Go `strings.Replace(s, old, new, -1)`: every non-overlapping occurrence of `old` in `s`, found
from left to right, is replaced by `new`. An empty `old` matches before every character and at
the end. -/
def Replace (s old new : GoString) : GoString :=
  if old = [] then new ++ s.bind (fun c => c :: new)
  else replaceAux old new s.length s

/-- Go `strings.HasPrefix`. -/
def HasPrefix (s pfx : GoString) : Bool := pfx.isPrefixOf s

end strings

/-- The Unicode tables of Go's `unicode` package, consulted for characters above U+007F. -/
structure UnicodeTables where
  IsLetter : Char → Bool
  IsDigit : Char → Bool
  IsSpace : Char → Bool
  ToTitle : Char → Char

namespace strings

/-- Go `strings.isSeparator`: ASCII letters, digits and the underscore are not separators, every
other ASCII character is; above ASCII, letters and digits are not, spaces are. -/
def isSeparator (U : UnicodeTables) (r : Char) : Bool :=
  if r.toNat ≤ 0x7F then
    if '0'.toNat ≤ r.toNat ∧ r.toNat ≤ '9'.toNat then false
    else if 'a'.toNat ≤ r.toNat ∧ r.toNat ≤ 'z'.toNat then false
    else if 'A'.toNat ≤ r.toNat ∧ r.toNat ≤ 'Z'.toNat then false
    else if r = '_' then false
    else true
  else if U.IsLetter r || U.IsDigit r then false
  else U.IsSpace r

/-- Go `unicode.ToTitle`: in ASCII, lower-case letters are upper-cased and nothing else changes. -/
def ToTitle (U : UnicodeTables) (r : Char) : Char :=
  if r.toNat ≤ 0x7F then
    if 'a'.toNat ≤ r.toNat ∧ r.toNat ≤ 'z'.toNat then Char.ofNat (r.toNat - 32) else r
  else U.ToTitle r

/-- The mapping closure of `strings.Title`, with the previous character as state. -/
def titleFrom (U : UnicodeTables) : Char → GoString → GoString
  | _, [] => []
  | prev, r :: rs => (if isSeparator U prev then ToTitle U r else r) :: titleFrom U r rs

/-- Go `strings.Title`: the letters that begin a word are mapped to title case. -/
def Title (U : UnicodeTables) (s : GoString) : GoString := titleFrom U ' ' s

end strings

/-! ## `path` -/

namespace path

/-- The element pass of `path.Clean`: empty and `.` elements are dropped, a `..` element removes
the element before it, is dropped at the root, and is kept at the start of a relative path.
The second argument is the output so far, last element first. -/
def cleanElems (rooted : Bool) : List GoString → List GoString → List GoString
  | [], acc => acc.reverse
  | e :: es, acc =>
    if e = [] ∨ e = ['.'] then cleanElems rooted es acc
    else if e = ['.', '.'] then
      match acc with
      | [] => if rooted then cleanElems rooted es [] else cleanElems rooted es [e]
      | a :: acc' =>
        if a = ['.', '.'] then cleanElems rooted es (e :: a :: acc')
        else cleanElems rooted es acc'
    else cleanElems rooted es (e :: acc)

/-- Go `path.Clean`: the shortest path name equivalent to `p` by purely lexical processing. -/
def Clean (p : GoString) : GoString :=
  if p = [] then ['.']
  else
    let rooted := p.head? = some '/'
    let body := List.intercalate ['/'] (cleanElems rooted (p.splitOn '/') [])
    if rooted then '/' :: body
    else if body = [] then ['.'] else body

/-- Go `path.Dir`: all but the last element of `p`, cleaned. -/
def Dir (p : GoString) : GoString :=
  Clean (p.reverse.dropWhile (fun c => c ≠ '/')).reverse

/-- Go `path.Join` of two elements: empty elements are ignored and the result is cleaned. -/
def Join (a b : GoString) : GoString :=
  if a = [] ∧ b = [] then []
  else if a = [] then Clean b
  else if b = [] then Clean a
  else Clean (a ++ '/' :: b)

end path

/-! ## The marker pattern of `Model.Source` -/

/-- The literal part of the pattern: the marker comment. -/
def marker : GoString := "// __MYPLUGIN:".toList

/-- The pattern tail ` ?`: one space is consumed when there is one. -/
def optSpace : GoString → GoString
  | ' ' :: r => r
  | r => r

/-- The pattern `// __MYPLUGIN: ?` matched at the head of `s`; the result is the text after the
match. -/
def matchMarker (s : GoString) : Option GoString :=
  if marker.isPrefixOf s then some (optSpace (s.drop marker.length)) else none

/-- The pattern `.*// __MYPLUGIN: ?` matched at the head of `s`, as the regexp engine does:
`.` is any character but a newline, `.*` takes as many characters as it can and gives them back
one by one until the rest of the pattern matches. The result is the text after the match. -/
def matchVars : GoString → Option GoString
  | [] => matchMarker []
  | c :: cs =>
    if c ≠ '\n' then
      match matchVars cs with
      | some r => some r
      | none => matchMarker (c :: cs)
    else matchMarker (c :: cs)

/-- The scan of `ReplaceAllLiteralString`: at the leftmost position where the pattern matches,
the match is replaced by `repl` and the scan resumes after it; otherwise one character is
copied. The first argument bounds the number of steps. -/
def replaceVarsAux (repl : GoString) : Nat → GoString → GoString
  | 0, s => s
  | fuel + 1, s =>
    match matchVars s with
    | some r => repl ++ replaceVarsAux repl fuel r
    | none =>
      match s with
      | [] => []
      | c :: cs => c :: replaceVarsAux repl fuel cs

/-- The call `vars_regexp.ReplaceAllLiteralString(src, repl)` for the compiled pattern
`.*// __MYPLUGIN: ?`. -/
def ReplaceAllLiteralString (src repl : GoString) : GoString :=
  replaceVarsAux repl src.length src

/-! ## The placeholder vocabulary -/

def tok_plugin : GoString := "__MYPLUGIN__".toList

def tok_name : GoString := "__MYPLUGINNAME__".toList

def tok_underscored : GoString := "__MYPLUGIN_UNDERSCORED__".toList

def inv_plugin : GoString := "\x7b\x7b go_vars .Yaml.Name \x7d\x7d".toList

def inv_name : GoString := "\x7b\x7b .Yaml.Name \x7d\x7d".toList

def inv_underscored : GoString := "\x7b\x7b go_vars_underscored .Yaml.Name \x7d\x7d".toList

/-- The line continuation: a backslash followed by a newline. -/
def continuation : GoString := ['\\', '\n']

/-- The macro preprocessor: the five rewriting steps of `Model.Source` (lines 76 to 81), from
the raw template text `tmpl_src` to `template_data`. -/
def preprocess (tmpl_src : GoString) : GoString :=
  let template_data := strings.Replace tmpl_src tok_plugin inv_plugin
  let template_data := strings.Replace template_data tok_name inv_name
  let template_data := strings.Replace template_data tok_underscored inv_underscored
  let template_data := ReplaceAllLiteralString template_data []
  strings.Replace template_data continuation []

/-! ## The descriptor model -/

/-- Modelled from the spec: the options of a flag in the descriptor library (the declaration of
`goforjj.YamlFlag` and its options is not part of this file's source); the spec names one
option, the secure mark. -/
structure YamlFlagOptions where
  Secure : Bool
  deriving DecidableEq, Repr

/-- Modelled from the spec: a flag of the descriptor library (`goforjj.YamlFlag`, declared
outside this file's source): it is optionally restricted to a list of actions, and carries
options. A nil and an empty `Actions` slice are both the empty list. -/
structure YamlFlag where
  Actions : List GoString
  Options : YamlFlagOptions
  deriving DecidableEq, Repr

/-- Modelled from the spec: an object of the descriptor library (`goforjj.YamlObject`, declared
outside this file's source): a mapping from flag name to flag and an optional explicit list of
applicable actions. A nil and an empty `Actions` slice are both the empty list. -/
structure YamlObject where
  Actions : List GoString
  Flags : GoMap YamlFlag

/-- Modelled from the spec: the parsed plugin descriptor (`goforjj.YamlPlugin`, declared outside
this file's source), of which the templates read the name field. -/
structure YamlPlugin where
  Name : GoString
  deriving DecidableEq, Repr

/-- The rendering context: the parsed descriptor and the raw descriptor text. -/
structure YamlData where
  Yaml : YamlPlugin
  Yaml_data : GoString
  deriving DecidableEq, Repr

/-! ## The template function library -/

/-- The source's `inStringList`: the first element of `elements` equal to `element`, and the
empty string when there is none. -/
def inStringList (element : GoString) : List GoString → GoString
  | [] => []
  | value :: rest => if element = value then value else inStringList element rest

/-- The helper `escape`. -/
def escape (str : GoString) : GoString :=
  strings.Replace (strings.Replace str ['"'] ['\\', '"']) ['\n']
    ['\\', 'n', '"', ' ', '+', '\n', ' ', ' ', ' ', '"']

/-- The helper `go_vars`. -/
def go_vars (U : UnicodeTables) (str : GoString) : GoString :=
  strings.Replace (strings.Title U str) ['-'] []

/-- The helper `go_vars_underscored`. -/
def go_vars_underscored (str : GoString) : GoString :=
  strings.Replace str ['-'] ['_']

/-- The helper `object_has_secure`: the range loop over the object's flags. -/
def object_has_secure (object : YamlObject) : Bool :=
  object.Flags.entries.any (fun e => e.2.Options.Secure)

/-- The default action list of `object_tree`. -/
def default_actions : List GoString :=
  ["add".toList, "change".toList, "remove".toList, "rename".toList, "list".toList]

/-- The action list that `object_tree` iterates over. -/
def actions_list (object : YamlObject) : List GoString :=
  if object.Actions ≠ [] then object.Actions else default_actions

/-- The inner loop of `object_tree`: the bucket `ret_a` of the action `v`. -/
def object_tree_bucket (object : YamlObject) (v : GoString) : GoMap YamlFlag :=
  object.Flags.entries.foldl
    (fun ret_a e =>
      if e.2.Actions = [] then ret_a.insert e.1 e.2
      else if inStringList v e.2.Actions = [] then ret_a
      else ret_a.insert e.1 e.2)
    ∅

/-- The helper `object_tree`: the flags of an object, tabulated by action. -/
def object_tree (object : YamlObject) : GoMap (GoMap YamlFlag) :=
  (actions_list object).foldl
    (fun ret v =>
      let ret_a := object_tree_bucket object v
      if ret_a.entries.length > 0 then ret.insert v ret_a else ret)
    ∅

/-- The `template.FuncMap` built by `apply_source`. -/
structure FuncMap where
  escape : GoString → GoString
  go_vars : GoString → GoString
  go_vars_underscored : GoString → GoString
  has_prefix : GoString → GoString → Bool
  object_has_secure : YamlObject → Bool
  object_tree : YamlObject → GoMap (GoMap YamlFlag)

/-- The function map of `apply_source`. -/
def funcs (U : UnicodeTables) : FuncMap where
  escape := escape
  go_vars := go_vars U
  go_vars_underscored := go_vars_underscored
  has_prefix := strings.HasPrefix
  object_has_secure := object_has_secure
  object_tree := object_tree

/-- The `text/template` engine, a parameter of the model. `Parse name funcs text` compiles a
template or reports an error; a compiled template, executed on a rendering context, yields the
bytes it wrote and the error it stopped on, if any. -/
structure Engine where
  Parse : GoString → FuncMap → GoString → Except GoString (YamlData → GoString × Option GoString)

/-! ## The filesystem -/

/-- A filesystem node: a regular file with its bytes and mode, or a directory with its mode.
The mode of a node is its Unix mode bits: the nine permission bits and the setuid, setgid and
sticky bits. -/
inductive Node where
  | file (content : GoString) (mode : Nat)
  | dir (mode : Nat)
  deriving DecidableEq, Repr

/-- A filesystem: the node, if any, under each cleaned path. Paths are resolved lexically, and
the working directory `.` and the root `/` always exist. -/
abbrev FS := GoString → Option Node

namespace FS

/-- The node a path name resolves to. The empty name resolves to nothing. -/
def node (fs : FS) (name : GoString) : Option Node :=
  if name = [] then none
  else
    let p := path.Clean name
    if p = ['.'] ∨ p = ['/'] then some (Node.dir 493) else fs p

/-- The filesystem with node `n` stored under the cleaned path `p`. -/
def set (fs : FS) (p : GoString) (n : Node) : FS :=
  fun q => if q = p then some n else fs q

end FS

namespace os

/-- The test `err == nil` on the result of `os.Stat(name)`. The one error of this filesystem
is that the name does not exist. -/
def Stat (fs : FS) (name : GoString) : Bool := (fs.node name).isSome

/-- Go `os.syscallMode`: the Unix mode bits that a `FileMode` stands for. These are its nine
permission bits, and the setuid, setgid and sticky bits (04000, 02000, 01000) when the flags
`ModeSetuid` (bit 23), `ModeSetgid` (bit 22) and `ModeSticky` (bit 20) are set; every other bit
of the `FileMode` is dropped. -/
def syscallMode (i : FileMode) : Nat :=
  i % 512 + (if i / 8388608 % 2 = 1 then 2048 else 0) + (if i / 4194304 % 2 = 1 then 1024 else 0)
    + (if i / 1048576 % 2 = 1 then 512 else 0)

/-- The directory prefixes of a cleaned path, shortest first: `a`, `a/b`, `a/b/c`. -/
def prefixes (p : GoString) : List GoString :=
  let rooted := p.head? = some '/'
  let elems := (p.splitOn '/').filter (fun e => e ≠ [])
  (List.range elems.length).map (fun i =>
    let body := List.intercalate ['/'] (elems.take (i + 1))
    if rooted then '/' :: body else body)

/-- One step of `os.MkdirAll`: an existing directory is kept, a missing one is made with the
mode bits of `perm` (the umask of the process is taken to be zero), and a regular file in the
way is an error. -/
def mkdirStep (perm : FileMode) (st : FS × Bool) (p : GoString) : FS × Bool :=
  if st.2 then
    match st.1.node p with
    | some (Node.dir _) => st
    | some (Node.file _ _) => (st.1, false)
    | none => (st.1.set p (Node.dir (syscallMode perm)), true)
  else st

/-- Go `os.MkdirAll(name, perm)`: the filesystem afterwards, and whether the call succeeded. -/
def MkdirAll (fs : FS) (name : GoString) (perm : FileMode) : FS × Bool :=
  if name = [] then (fs, false)
  else (prefixes (path.Clean name)).foldl (mkdirStep perm) (fs, true)

/-- Go `os.Create(name)`: the file is created with mode 0666 (the umask of the process is taken
to be zero) or truncated; it fails when the parent is not a directory or when `name` is a
directory. The process is taken to have the permission to write: the modes of the nodes are
not consulted. -/
def Create (fs : FS) (name : GoString) : FS × Bool :=
  match fs.node (path.Dir (path.Clean name)), fs.node name with
  | some (Node.dir _), none => (fs.set (path.Clean name) (Node.file [] 438), name ≠ [])
  | some (Node.dir _), some (Node.file _ mode) => (fs.set (path.Clean name) (Node.file [] mode), true)
  | _, _ => (fs, false)

/-- A write of `data` to the file opened on `name`. -/
def Write (fs : FS) (name : GoString) (data : GoString) : FS :=
  match fs.node name with
  | some (Node.file content mode) => fs.set (path.Clean name) (Node.file (content ++ data) mode)
  | _ => fs

/-- Go `os.Chmod(name, mode)`: the mode bits of the node become `syscallMode(mode)`; it fails
when `name` does not exist. -/
def Chmod (fs : FS) (name : GoString) (mode : FileMode) : FS × Bool :=
  match fs.node name with
  | some (Node.file content _) =>
    (fs.set (path.Clean name) (Node.file content (syscallMode mode)), true)
  | some (Node.dir _) => (fs.set (path.Clean name) (Node.dir (syscallMode mode)), true)
  | none => (fs, false)

/-- Go `ioutil.ReadFile(name)`: the bytes of a regular file. -/
def ReadFile (fs : FS) (name : GoString) : Option GoString :=
  match fs.node name with
  | some (Node.file content _) => some content
  | _ => none

end os

/-! ## Sources, models and the registry -/

/-- The banner of a regenerated file. -/
def prefix_generated_template : GoString :=
  ("// This file is autogenerated by \"go generate\". Do not modify it.\n" ++
   "// It has been generated from your '\x7b\x7b.Yaml.Name\x7d\x7d.yaml' file.\n" ++
   "// To update those structure, update the '\x7b\x7b.Yaml.Name\x7d\x7d.yaml' and run 'go generate'\n").toList

/-- The banner of a file created once. -/
def prefix_created_template : GoString :=
  ("// This file has been created by \"go generate\" as initial code. go generate will never update it, EXCEPT if you remove it.\n" ++
   "\n" ++
   "// So, update it for your need.\n").toList

/-- Core of the generated source file. If `reset` is true, the file is regenerated at each
run. -/
structure Source where
  reset : Bool
  template : GoString
  rights : FileMode
  deriving DecidableEq, Repr

/-- Collection of source files to generate; the key of `sources` is the file name. -/
structure Model where
  sources : GoMap Source
  model_path : GoString

/-- The registry of models. -/
structure Models where
  model : GoMap Model

/-- A line written to standard output. -/
inductive Msg where
  | template_missing (tmpl : GoString)
  | template_unreadable (tmpl : GoString)
  | invalid_model (name : GoString)
  | template_error (err : GoString)
  | tree_error (file_path : GoString)
  | not_writeable (file : GoString)
  | execute_error (err : GoString)
  | rights_error (rights : FileMode)
  | regenerated (file : GoString)
  | created (file : GoString)
  deriving DecidableEq, Repr

/-- The process state the code acts on: the filesystem and the lines printed so far. -/
structure World where
  fs : FS
  out : List Msg

/-- How a call ends: it returns, or the process exits with a code. -/
inductive Status where
  | returned
  | exited (code : Nat)
  deriving DecidableEq, Repr

/-- The state after printing one line. -/
def World.print (w : World) (m : Msg) : World := { w with out := w.out ++ [m] }

/-- The state with the filesystem replaced. -/
def World.setFS (w : World) (fs : FS) : World := { w with fs := fs }

/-- The source's `Models.Create`: a new, empty model of sources registered under `name`. A nil
registry map is the empty map. -/
def Models.Create (m : Models) (name template_path : GoString) : Models × Model :=
  let sources : Model := { sources := ∅, model_path := path.Join template_path name }
  ({ model := m.model.insert name sources }, sources)

/-- Set appropriate comment prefix. -/
def template_comment (template comment : GoString) : GoString :=
  strings.Replace template ['/', '/'] comment

/-- The source's `Model.Source`: add a source template to the model. The template file is
read from the filesystem of `w`; the result is the state afterwards, how the call ended, and
the model. -/
def Model.Source (m : Model) (w : World) (file : GoString) (rights : FileMode)
    (comment tmpl_file : GoString) (reset : Bool) : World × Status × Model :=
  let tmpl := path.Join m.model_path tmpl_file
  if os.Stat w.fs tmpl = false then
    (w.print (Msg.template_missing tmpl), Status.exited 1, m)
  else
    match os.ReadFile w.fs tmpl with
    | none => (w.print (Msg.template_unreadable tmpl), Status.exited 1, m)
    | some tmpl_src =>
      let template_data := preprocess tmpl_src
      let switched : GoString × GoString :=
        if comment = [] then (file, template_data)
        else if reset then
          ("generated-".toList ++ file,
            template_comment prefix_generated_template comment ++ template_data)
        else (file, template_comment prefix_created_template comment ++ template_data)
      (w, Status.returned,
        Model.mk (m.sources.insert switched.1 ⟨reset, switched.2, rights⟩) m.model_path)

/-- The source's `Source.apply_source`: generate the file `file` from the source `s`, unless it exists and
the source is not a regenerated one. The result is the state afterwards and how the call
ended. -/
def Source.apply_source (U : UnicodeTables) (E : Engine) (s : Source) (yaml : YamlData)
    (file : GoString) (w : World) : World × Status :=
  if os.Stat w.fs file = true ∧ s.reset = false then (w, Status.returned)
  else
    match E.Parse file (funcs U) s.template with
    | Except.error err => (w.print (Msg.template_error err), Status.exited 1)
    | Except.ok tmpl =>
      let file_path := path.Dir file
      let made := if file_path ≠ ['.'] then os.MkdirAll w.fs file_path 493 else (w.fs, true)
      if made.2 = false then
        ((w.setFS made.1).print (Msg.tree_error file_path), Status.exited 1)
      else
        let opened := os.Create made.1 file
        if opened.2 = false then
          ((w.setFS opened.1).print (Msg.not_writeable file), Status.exited 1)
        else
          let rendered := tmpl yaml
          let written := os.Write opened.1 file rendered.1
          match rendered.2 with
          | some err => ((w.setFS written).print (Msg.execute_error err), Status.exited 1)
          | none =>
            let moded := os.Chmod written file s.rights
            if moded.2 = false then
              ((w.setFS moded.1).print (Msg.rights_error s.rights), Status.exited 1)
            else if s.reset then
              ((w.setFS moded.1).print (Msg.regenerated file), Status.returned)
            else
              ((w.setFS moded.1).print (Msg.created file), Status.returned)

/-- The range loop of `Create_model` over the sources of a model, in the order of `entries`;
it stops at the first source whose application exits. -/
def apply_sources (U : UnicodeTables) (E : Engine) (yaml : YamlData) :
    List (Sigma fun _ : GoString => Source) → World → World × Status
  | [], w => (w, Status.returned)
  | e :: rest, w =>
    match e.2.apply_source U E yaml e.1 w with
    | (w1, Status.returned) => apply_sources U E yaml rest w1
    | (w1, Status.exited code) => (w1, Status.exited code)

/-- The source's `Models.Create_model`: create the source files from the model given. -/
def Models.Create_model (U : UnicodeTables) (E : Engine) (m : Models) (yaml : YamlPlugin)
    (raw_yaml : GoString) (name : GoString) (w : World) : World × Status :=
  let yaml_data : YamlData := { Yaml := yaml, Yaml_data := raw_yaml }
  match m.model.lookup name with
  | none => (w.print (Msg.invalid_model name), Status.exited 1)
  | some model => apply_sources U E yaml_data model.sources.entries w

/-! ## Example inputs -/

/-- An object whose only action is the empty string, with one flag restricted to it. -/
def object_empty_action : YamlObject :=
  ⟨[[]], AList.singleton "secret".toList ⟨[[]], ⟨false⟩⟩⟩

/-- An object without action list, with a flag restricted to `add` and an unrestricted one. -/
def object_two_flags : YamlObject :=
  ⟨[], (AList.singleton "token".toList ⟨[], ⟨true⟩⟩).insert "name".toList ⟨["add".toList], ⟨false⟩⟩⟩

/-- Unicode tables without letters, digits or spaces above ASCII, and no case mapping there. -/
def tables_ascii : UnicodeTables :=
  ⟨fun _ => false, fun _ => false, fun _ => false, fun c => c⟩

/-- An engine in which every template compiles, and renders as its own text followed by the
descriptor name. -/
def engine_echo : Engine :=
  ⟨fun _ _ text => Except.ok (fun yaml => (text ++ yaml.Yaml.Name, none))⟩

/-- The rendering context of the descriptor named `my-app`. -/
def yaml_my_app : YamlData := ⟨⟨"my-app".toList⟩, "plugin: my-app".toList⟩

/-- A filesystem that holds the user-edited file `main.go`. -/
def fs_user_file : FS :=
  fun p => if p = "main.go".toList then some (Node.file "edited".toList 384) else none

/-- A filesystem in which `gen` is a regular file. -/
def fs_gen_is_file : FS :=
  fun p => if p = "gen".toList then some (Node.file "notes".toList 420) else none

/-- A filesystem that holds an earlier `gen/api.go`. -/
def fs_old_api : FS :=
  fun p =>
    if p = "gen".toList then some (Node.dir 493)
    else if p = "gen/api.go".toList then some (Node.file "stale".toList 384)
    else none

/-- The empty filesystem. -/
def fs_empty : FS := fun _ => none

/-- A source created once. -/
def source_once : Source := ⟨false, "package main // ".toList, 420⟩

/-- A source regenerated at each run. -/
def source_reset : Source := ⟨true, "package ".toList, 420⟩

/-- A source regenerated at each run whose rights are written 01644: the bit 01000 is none of
the permission bits, and no flag of `FileMode`. -/
def source_wide_rights : Source := ⟨true, "package ".toList, 932⟩

/-! ## Vocabulary of the statements on the preprocessor -/

/-- The three placeholder tokens. -/
def placeholder_tokens : List GoString := [tok_plugin, tok_name, tok_underscored]

/-- The text `s` contains no placeholder token. -/
abbrev no_placeholder (s : GoString) : Prop := ∀ t ∈ placeholder_tokens, ¬ t <:+: s

/-- A line break or the end of the text. -/
def lineEnd (rest : GoString) : Prop := rest = [] ∨ rest.head? = some '\n'

/-- The start of the text or of a line: `pre` is empty or ends with a line break. -/
abbrev lineStart (pre : GoString) : Prop := pre = [] ∨ pre.getLast? = some '\n'

/-- A continuation that follows a backslash: backslash, backslash, newline. -/
def escaped_continuation : GoString := ['\\', '\\', '\n']

/-- The placeholder tokens, each with the invocation it stands for. -/
def placeholder_table : List (GoString × GoString) :=
  [(tok_plugin, inv_plugin), (tok_name, inv_name), (tok_underscored, inv_underscored)]

/-- The substitution as the spec words it, in one pass from left to right: each occurrence of
a placeholder is rewritten into its invocation, and all other text is copied. The first
argument bounds the number of steps. -/
def substituteAux : Nat → GoString → GoString
  | 0, s => s
  | fuel + 1, s =>
    match placeholder_table.find? (fun p => p.1.isPrefixOf s) with
    | some p => p.2 ++ substituteAux fuel (s.drop p.1.length)
    | none =>
      match s with
      | [] => []
      | c :: cs => c :: substituteAux fuel cs

/-- The text `s` with each placeholder rewritten into its invocation. -/
def substitute_placeholders (s : GoString) : GoString := substituteAux s.length s

/-- A placeholder occurs at the head of `s`. -/
def starts_placeholder (s : GoString) : Bool :=
  placeholder_tokens.any (fun t => t.isPrefixOf s)

/-- A placeholder occurs at the head of `s`, and another occurrence starts inside it. -/
def overlap_at_head (s : GoString) : Bool :=
  placeholder_tokens.any (fun t =>
    t.isPrefixOf s && (List.range (t.length - 1)).any (fun k => starts_placeholder (s.drop (k + 1))))

/-- The occurrences of placeholders in `s` do not overlap. -/
abbrev placeholders_disjoint (s : GoString) : Prop :=
  ∀ u ∈ s.tails, overlap_at_head u = false

/-! ## Example inputs of registration -/

/-- A filesystem that holds the template file `templates/rest/main.go.tmpl`. -/
def fs_templates : FS :=
  fun p =>
    if p = "templates/rest/main.go.tmpl".toList then
      some (Node.file "package __MYPLUGIN__\n".toList 420)
    else none

/-- The empty model of the template directory `templates/rest`. -/
def model_rest : Model := ⟨∅, "templates/rest".toList⟩

/-! ## Vocabulary of the statements on the helper functions -/

/-- What `escape` writes for one character: a backslash before a double quote; for a newline,
the characters `\n`, a closing quote, ` +`, a line break, three spaces and an opening quote;
any other character as it is. -/
def escape_char (c : Char) : GoString :=
  if c = '"' then ['\\', '"']
  else if c = '\n' then ['\\', 'n', '"', ' ', '+', '\n', ' ', ' ', ' ', '"']
  else [c]

/-- An ASCII letter. -/
def is_ascii_letter (c : Char) : Bool :=
  ('a'.toNat ≤ c.toNat && c.toNat ≤ 'z'.toNat) || ('A'.toNat ≤ c.toNat && c.toNat ≤ 'Z'.toNat)

/-- A word with its first letter upper-cased and the other letters unchanged. -/
def upper_first : GoString → GoString
  | [] => []
  | c :: cs => (if 'a'.toNat ≤ c.toNat ∧ c.toNat ≤ 'z'.toNat then Char.ofNat (c.toNat - 32) else c) :: cs

/-- The hyphen-delimited words of `s`, each with its first letter upper-cased, concatenated. -/
def camel_case (s : GoString) : GoString := ((s.splitOn '-').map upper_first).join

/-! ## Vocabulary and example inputs of the statements on the batch -/

namespace path

end path

/-! ## Lemmas on the filesystem -/

theorem FS.node_set_self (fs : FS) (file : GoString) (n : Node) (h0 : file ≠ [])
    (h1 : path.Clean file ≠ ['.']) (h2 : path.Clean file ≠ ['/']) :
    (fs.set (path.Clean file) n).node file = some n := by
  simp [FS.node, FS.set, h0, h1, h2]

theorem FS.node_plain (fs : FS) (file : GoString)
    (h : (fs.node file = none ∧ file ≠ []) ∨ ∃ c m, fs.node file = some (Node.file c m)) :
    file ≠ [] ∧ path.Clean file ≠ ['.'] ∧ path.Clean file ≠ ['/'] := by
  unfold FS.node at h
  by_cases h0 : file = []
  · simp [h0] at h
  · by_cases h1 : path.Clean file = ['.'] ∨ path.Clean file = ['/']
    · simp [h0, h1] at h
    · exact ⟨h0, fun e => h1 (Or.inl e), fun e => h1 (Or.inr e)⟩

/-- A successful `os.Create` leaves an empty regular file under the cleaned name. -/
theorem create_ok (fs : FS) (file : GoString) (hc : (os.Create fs file).2 = true) :
    file ≠ [] ∧ path.Clean file ≠ ['.'] ∧ path.Clean file ≠ ['/'] ∧
      ∃ mode, (os.Create fs file).1 = fs.set (path.Clean file) (Node.file [] mode) := by
  unfold os.Create at hc ⊢
  cases hd : fs.node (path.Dir (path.Clean file)) with
  | none => simp [hd] at hc
  | some nd =>
    cases nd with
    | file c m => simp [hd] at hc
    | dir m =>
      cases hf : fs.node file with
      | none =>
        simp only [hd, hf] at hc ⊢
        have h0 : file ≠ [] := by simpa using hc
        obtain ⟨h0, h1, h2⟩ := FS.node_plain fs file (Or.inl ⟨hf, h0⟩)
        exact ⟨h0, h1, h2, _, rfl⟩
      | some nf =>
        cases nf with
        | dir m2 => simp [hd, hf] at hc
        | file c mode =>
          simp only [hd, hf] at hc ⊢
          obtain ⟨h0, h1, h2⟩ := FS.node_plain fs file (Or.inr ⟨_, _, hf⟩)
          exact ⟨h0, h1, h2, _, rfl⟩

/-- The mode bits of a `FileMode` keep its nine permission bits. -/
theorem syscallMode_perm (i : Nat) : os.syscallMode i % 512 = i % 512 := by
  unfold os.syscallMode
  split_ifs <;> omega

/-- A `FileMode` of permission bits alone is its own mode bits. -/
theorem syscallMode_of_perm (i : Nat) (h : i < 512) : os.syscallMode i = i := by
  have h1 : i / 8388608 = 0 := Nat.div_eq_of_lt (by omega)
  have h2 : i / 4194304 = 0 := Nat.div_eq_of_lt (by omega)
  have h3 : i / 1048576 = 0 := Nat.div_eq_of_lt (by omega)
  unfold os.syscallMode
  rw [h1, h2, h3, Nat.mod_eq_of_lt h]
  rfl

/-- A file that was created, written once and given its mode holds what was written. -/
theorem create_write_chmod (fs : FS) (file out : GoString) (rights : FileMode)
    (hc : (os.Create fs file).2 = true) :
    (os.Chmod (os.Write (os.Create fs file).1 file out) file rights).2 = true ∧
    (os.Chmod (os.Write (os.Create fs file).1 file out) file rights).1.node file =
      some (Node.file out (os.syscallMode rights)) := by
  obtain ⟨h0, h1, h2, mode, hset⟩ := create_ok fs file hc
  rw [hset]
  have hw : os.Write (fs.set (path.Clean file) (Node.file [] mode)) file out =
      (fs.set (path.Clean file) (Node.file [] mode)).set (path.Clean file)
        (Node.file out mode) := by
    unfold os.Write
    rw [FS.node_set_self _ _ _ h0 h1 h2]
    simp
  rw [hw]
  unfold os.Chmod
  rw [FS.node_set_self _ _ _ h0 h1 h2]
  simp only [true_and]
  exact FS.node_set_self _ _ _ h0 h1 h2

/-! ## Lemmas on the flags-by-action tabulator -/

/-- The test that `object_tree` applies to a flag for the action `v`. -/
theorem inStringList_ne_nil {v : GoString} (hv : v ≠ []) (l : List GoString) :
    inStringList v l ≠ [] ↔ v ∈ l := by
  induction l with
  | nil => simp [inStringList]
  | cons a l ih =>
    by_cases h : v = a
    · subst h; simp [inStringList, hv]
    · simp [inStringList, h, ih]

theorem inStringList_eq_nil_of_not_mem {v : GoString} (l : List GoString) (h : v ∉ l) :
    inStringList v l = [] := by
  induction l with
  | nil => simp [inStringList]
  | cons a l ih =>
    have h1 : v ≠ a := fun e => h (by simp [e])
    have h2 : v ∉ l := fun e => h (by simp [e])
    simp [inStringList, h1, ih h2]

/-- The fold of the inner loop of `object_tree`, over any list of entries with unique keys. -/
theorem bucket_fold_lookup (v f : GoString) :
    ∀ (l : List (Sigma fun _ : GoString => YamlFlag)) (acc : GoMap YamlFlag), l.NodupKeys →
      (l.foldl
        (fun ret_a e =>
          if e.2.Actions = [] then ret_a.insert e.1 e.2
          else if inStringList v e.2.Actions = [] then ret_a
          else ret_a.insert e.1 e.2) acc).lookup f =
      match l.dlookup f with
      | some fl => if fl.Actions = [] ∨ inStringList v fl.Actions ≠ [] then some fl
                   else acc.lookup f
      | none => acc.lookup f := by
  intro l
  induction l with
  | nil => intro acc _; simp
  | cons e l ih =>
    intro acc nd
    obtain ⟨k, fl⟩ := e
    rw [List.nodupKeys_cons] at nd
    rw [List.foldl_cons, ih _ nd.2]
    by_cases hk : f = k
    · subst hk
      have hnone : l.dlookup f = none := List.dlookup_eq_none.2 nd.1
      rw [hnone, List.dlookup_cons_eq]
      by_cases h1 : fl.Actions = []
      · simp [h1]
      · by_cases h2 : inStringList v fl.Actions = []
        · simp [h1, h2]
        · simp [h1, h2]
    · rw [List.dlookup_cons_ne _ _ hk]
      have hacc : ((if fl.Actions = [] then acc.insert k fl
          else if inStringList v fl.Actions = [] then acc
          else acc.insert k fl) : GoMap YamlFlag).lookup f = acc.lookup f := by
        by_cases h1 : fl.Actions = []
        · simp [h1, AList.lookup_insert_ne hk]
        · by_cases h2 : inStringList v fl.Actions = []
          · simp [h1, h2]
          · simp [h1, h2, AList.lookup_insert_ne hk]
      simp only [hacc]

/-- What the bucket of an action holds. -/
theorem object_tree_bucket_lookup (o : YamlObject) (v f : GoString) :
    (object_tree_bucket o v).lookup f =
      match o.Flags.lookup f with
      | some fl => if fl.Actions = [] ∨ inStringList v fl.Actions ≠ [] then some fl else none
      | none => none := by
  unfold object_tree_bucket
  rw [bucket_fold_lookup v f o.Flags.entries ∅ o.Flags.nodupKeys]
  simp [AList.lookup]

/-- The fold of the outer loop of `object_tree`, over any list of actions. -/
theorem tree_fold_lookup (o : YamlObject) (v : GoString) :
    ∀ (l : List GoString) (acc : GoMap (GoMap YamlFlag)),
      (l.foldl
        (fun ret v =>
          let ret_a := object_tree_bucket o v
          if ret_a.entries.length > 0 then ret.insert v ret_a else ret) acc).lookup v =
      if v ∈ l ∧ (object_tree_bucket o v).entries.length > 0 then some (object_tree_bucket o v)
      else acc.lookup v := by
  intro l
  induction l with
  | nil => intro acc; simp
  | cons a l ih =>
    intro acc
    rw [List.foldl_cons, ih]
    by_cases hmem : v ∈ l ∧ (object_tree_bucket o v).entries.length > 0
    · have : v ∈ a :: l ∧ (object_tree_bucket o v).entries.length > 0 :=
        ⟨List.mem_cons_of_mem _ hmem.1, hmem.2⟩
      rw [if_pos hmem, if_pos this]
    · rw [if_neg hmem]
      by_cases hva : v = a
      · subst hva
        by_cases hb : (object_tree_bucket o v).entries.length > 0
        · simp [hb]
        · simp [hb]
      · have h1 : (v ∈ a :: l ∧ (object_tree_bucket o v).entries.length > 0) ↔
            (v ∈ l ∧ (object_tree_bucket o v).entries.length > 0) := by
          simp [hva]
        rw [if_neg (fun h => hmem (h1.1 h))]
        by_cases hb : (object_tree_bucket o a).entries.length > 0
        · simp [hb, AList.lookup_insert_ne hva]
        · simp [hb]

/-- What `object_tree` maps an action to. -/
theorem object_tree_lookup (o : YamlObject) (v : GoString) :
    (object_tree o).lookup v =
      if v ∈ actions_list o ∧ (object_tree_bucket o v).entries.length > 0
      then some (object_tree_bucket o v) else none := by
  unfold object_tree
  rw [tree_fold_lookup]
  simp

theorem alist_entries_eq_nil {V : Type} (m : GoMap V) (h : ∀ f, m.lookup f = none) :
    m.entries = [] := by
  cases hm : m.entries with
  | nil => rfl
  | cons e l =>
    exfalso
    have hmem : e.1 ∈ m := by
      rw [AList.mem_keys, AList.keys, hm]
      rw [List.keys_cons]
      exact List.mem_cons_self _ _
    exact (AList.lookup_eq_none.1 (h e.1)) hmem

theorem alist_entries_ne_nil {V : Type} (m : GoMap V) (f : GoString) (x : V)
    (h : m.lookup f = some x) : m.entries.length > 0 := by
  cases hm : m.entries with
  | nil =>
    exfalso
    have : m.lookup f = none := by
      simp [AList.lookup, hm]
    rw [this] at h
    cases h
  | cons e l => exact Nat.succ_pos _

/-- A bucket that holds a flag is kept by `object_tree`. -/
theorem object_tree_lookup_of_flag (o : YamlObject) (v f : GoString) (fl : YamlFlag)
    (hv : v ∈ actions_list o) (h : (object_tree_bucket o v).lookup f = some fl) :
    (object_tree o).lookup v = some (object_tree_bucket o v) := by
  rw [object_tree_lookup, if_pos ⟨hv, alist_entries_ne_nil _ f fl h⟩]

/-- The inclusion rule of `object_tree` for an action that is not the empty string. -/
theorem object_tree_inclusion (o : YamlObject) (v : GoString) (hv : v ∈ actions_list o)
    (hne : v ≠ []) (f : GoString) (fl : YamlFlag) (hf : o.Flags.lookup f = some fl) :
    (∃ b, (object_tree o).lookup v = some b ∧ b.lookup f = some fl) ↔
      (fl.Actions = [] ∨ v ∈ fl.Actions) := by
  have hb := object_tree_bucket_lookup o v f
  rw [hf] at hb
  simp only [] at hb
  constructor
  · rintro ⟨b, h1, h2⟩
    rw [object_tree_lookup] at h1
    by_cases hc : v ∈ actions_list o ∧ (object_tree_bucket o v).entries.length > 0
    · rw [if_pos hc] at h1
      cases h1
      by_cases hcond : fl.Actions = [] ∨ inStringList v fl.Actions ≠ []
      · rcases hcond with h | h
        · exact Or.inl h
        · exact Or.inr ((inStringList_ne_nil hne _).1 h)
      · rw [if_neg hcond] at hb
        rw [hb] at h2
        cases h2
    · rw [if_neg hc] at h1
      cases h1
  · intro h
    have hcond : fl.Actions = [] ∨ inStringList v fl.Actions ≠ [] := by
      rcases h with h | h
      · exact Or.inl h
      · exact Or.inr ((inStringList_ne_nil hne _).2 h)
    rw [if_pos hcond] at hb
    exact ⟨_, object_tree_lookup_of_flag o v f fl hv hb, hb⟩

/-- C3 (evaluation at the failing input): for the object whose action list is the empty string
alone and whose flag `secret` is restricted to the empty string, the action is in the effective
list and in the flag's restriction list, yet `object_tree` has no bucket for it. -/
theorem object_tree_empty_action_dropped :
    ([] : GoString) ∈ actions_list object_empty_action ∧
    object_empty_action.Flags.lookup "secret".toList = some ⟨[[]], ⟨false⟩⟩ ∧
    ([] : GoString) ∈ (⟨[[]], ⟨false⟩⟩ : YamlFlag).Actions ∧
    (object_tree object_empty_action).lookup [] = none := by
  decide

/-- C4: for an object without explicit action list that has an unrestricted flag `f2`, the keys
of `object_tree` are exactly the five actions `add`, `change`, `remove`, `rename` and `list`,
so there are five buckets; and when its only other flag `f1` is restricted to `add`, the `add`
bucket holds both flags and each of the buckets `change`, `remove`, `rename` and `list` holds
`f2` alone. -/
theorem object_tree_default_actions (o : YamlObject) (f2 : GoString) (fl2 : YamlFlag)
    (hact : o.Actions = []) (h2 : o.Flags.lookup f2 = some fl2) (hr2 : fl2.Actions = []) :
    (∀ v, v ∈ object_tree o ↔
      (v = "add".toList ∨ v = "change".toList ∨ v = "remove".toList ∨ v = "rename".toList ∨
        v = "list".toList)) ∧
    (object_tree o).keys.length = 5 ∧
    (∀ (f1 : GoString) (fl1 : YamlFlag), f1 ≠ f2 → o.Flags.lookup f1 = some fl1 →
      fl1.Actions = ["add".toList] → (∀ g, g ≠ f1 → g ≠ f2 → o.Flags.lookup g = none) →
      (∃ b, (object_tree o).lookup "add".toList = some b ∧ b.lookup f1 = some fl1 ∧
        b.lookup f2 = some fl2 ∧ ∀ g, g ≠ f1 → g ≠ f2 → b.lookup g = none) ∧
      (∀ v, (v = "change".toList ∨ v = "remove".toList ∨ v = "rename".toList ∨
          v = "list".toList) →
        ∃ b, (object_tree o).lookup v = some b ∧ b.lookup f1 = none ∧
          b.lookup f2 = some fl2 ∧ ∀ g, g ≠ f1 → g ≠ f2 → b.lookup g = none)) := by
  have hlist : actions_list o = default_actions := by simp [actions_list, hact]
  have hfive : ∀ v, v ∈ default_actions ↔
      (v = "add".toList ∨ v = "change".toList ∨ v = "remove".toList ∨ v = "rename".toList ∨
        v = "list".toList) := by
    intro v
    simp [default_actions]
  have hb2 : ∀ v, (object_tree_bucket o v).lookup f2 = some fl2 := by
    intro v
    rw [object_tree_bucket_lookup, h2]
    simp [hr2]
  have hkey : ∀ v, v ∈ default_actions →
      (object_tree o).lookup v = some (object_tree_bucket o v) := by
    intro v hv
    exact object_tree_lookup_of_flag o v f2 fl2 (hlist ▸ hv) (hb2 v)
  have hkeys : ∀ v, v ∈ object_tree o ↔ v ∈ default_actions := by
    intro v
    constructor
    · intro hv
      have hsome := AList.lookup_isSome.2 hv
      rw [object_tree_lookup] at hsome
      by_cases hc : v ∈ actions_list o ∧ (object_tree_bucket o v).entries.length > 0
      · exact hlist ▸ hc.1
      · rw [if_neg hc] at hsome
        cases hsome
    · intro hv
      apply AList.lookup_isSome.1
      rw [hkey v hv]
      rfl
  refine ⟨fun v => (hkeys v).trans (hfive v), ?_, ?_⟩
  · have hnd : default_actions.Nodup := by decide
    have hperm : (object_tree o).keys.Perm default_actions :=
      (List.perm_ext_iff_of_nodup (object_tree o).keys_nodup hnd).2
        (fun v => AList.mem_keys.symm.trans (hkeys v))
    rw [hperm.length_eq]
    rfl
  · intro f1 fl1 hne h1 hr1 honly
    have hother : ∀ v g, g ≠ f1 → g ≠ f2 → (object_tree_bucket o v).lookup g = none := by
      intro v g hg1 hg2
      rw [object_tree_bucket_lookup, honly g hg1 hg2]
    refine ⟨⟨_, hkey _ (by decide), ?_, hb2 _, hother _⟩, ?_⟩
    · rw [object_tree_bucket_lookup, h1]
      simp only [hr1]
      have hin : inStringList "add".toList ["add".toList] ≠ [] := by decide
      rw [if_pos (Or.inr hin)]
    · intro v hv4
      have hv : v ∈ default_actions := (hfive v).2 (Or.inr hv4)
      have hvne : v ≠ "add".toList := by
        rcases hv4 with h | h | h | h <;> rw [h] <;> decide
      refine ⟨_, hkey v hv, ?_, hb2 v, hother v⟩
      rw [object_tree_bucket_lookup, h1]
      simp only [hr1]
      have hin : inStringList v ["add".toList] = [] :=
        inStringList_eq_nil_of_not_mem _ (by simpa using hvne)
      rw [if_neg]
      rintro (h | h)
      · cases h
      · exact h hin

/-- The witness of C4: the object with the flag `name` restricted to `add` and the
unrestricted flag `token`. -/
theorem object_tree_default_actions_witness :
    (object_two_flags.Actions = [] ∧
      object_two_flags.Flags.lookup "token".toList = some ⟨[], ⟨true⟩⟩ ∧
      object_two_flags.Flags.lookup "name".toList = some ⟨["add".toList], ⟨false⟩⟩) ∧
    (∀ v, v ∈ object_tree object_two_flags ↔
      (v = "add".toList ∨ v = "change".toList ∨ v = "remove".toList ∨ v = "rename".toList ∨
        v = "list".toList)) ∧
    (object_tree object_two_flags).keys.length = 5 ∧
    (∃ b, (object_tree object_two_flags).lookup "add".toList = some b ∧
      b.lookup "name".toList = some ⟨["add".toList], ⟨false⟩⟩ ∧
      b.lookup "token".toList = some ⟨[], ⟨true⟩⟩ ∧
      ∀ g, g ≠ "name".toList → g ≠ "token".toList → b.lookup g = none) ∧
    (∀ v, (v = "change".toList ∨ v = "remove".toList ∨ v = "rename".toList ∨
        v = "list".toList) →
      ∃ b, (object_tree object_two_flags).lookup v = some b ∧
        b.lookup "name".toList = none ∧ b.lookup "token".toList = some ⟨[], ⟨true⟩⟩ ∧
        ∀ g, g ≠ "name".toList → g ≠ "token".toList → b.lookup g = none) :=
  ⟨⟨by decide, by decide, by decide⟩,
    (object_tree_default_actions object_two_flags "token".toList ⟨[], ⟨true⟩⟩
      (by decide) (by decide) (by decide)).1,
    (object_tree_default_actions object_two_flags "token".toList ⟨[], ⟨true⟩⟩
      (by decide) (by decide) (by decide)).2.1,
    (object_tree_default_actions object_two_flags "token".toList ⟨[], ⟨true⟩⟩
      (by decide) (by decide) (by decide)).2.2 "name".toList ⟨["add".toList], ⟨false⟩⟩
      (by decide) (by decide) (by decide)
      (by
        intro g h1 h2
        apply AList.lookup_eq_none.2
        intro hmem
        have hk : g ∈ object_two_flags.Flags.keys := AList.mem_keys.1 hmem
        have : object_two_flags.Flags.keys = ["name".toList, "token".toList] := by decide
        rw [this] at hk
        simp only [List.mem_cons, List.mem_singleton, List.not_mem_nil, or_false] at hk
        rcases hk with h | h
        · exact h1 h
        · exact h2 h)⟩

/-- C5: no key of `object_tree` maps to an empty bucket; an action of the effective list to
which no flag applies (every flag is restricted, and to other actions) is not a key; and every
key is in the effective action list. -/
theorem object_tree_empty_bucket_elision (o : YamlObject) :
    (∀ v b, (object_tree o).lookup v = some b → b.entries ≠ []) ∧
    (∀ v, v ∈ actions_list o →
      (∀ f fl, o.Flags.lookup f = some fl → fl.Actions ≠ [] ∧ v ∉ fl.Actions) →
      v ∉ object_tree o) ∧
    (∀ v, v ∈ object_tree o → v ∈ actions_list o) := by
  refine ⟨?_, ?_, ?_⟩
  · intro v b h
    rw [object_tree_lookup] at h
    by_cases hc : v ∈ actions_list o ∧ (object_tree_bucket o v).entries.length > 0
    · rw [if_pos hc] at h
      cases h
      intro hnil
      have := hc.2
      rw [hnil] at this
      exact Nat.lt_irrefl _ this
    · rw [if_neg hc] at h
      cases h
  · intro v _ hnone
    apply AList.lookup_eq_none.1
    have hempty : (object_tree_bucket o v).entries = [] := by
      apply alist_entries_eq_nil
      intro f
      rw [object_tree_bucket_lookup]
      cases hf : o.Flags.lookup f with
      | none => rfl
      | some fl =>
        have := hnone f fl hf
        simp [this.1, inStringList_eq_nil_of_not_mem _ this.2]
    rw [object_tree_lookup, hempty]
    simp
  · intro v hv
    have hsome := AList.lookup_isSome.2 hv
    rw [object_tree_lookup] at hsome
    by_cases hc : v ∈ actions_list o ∧ (object_tree_bucket o v).entries.length > 0
    · exact hc.1
    · rw [if_neg hc] at hsome
      cases hsome

/-- C1: for a source with `reset == false` and a target that exists, `apply_source` returns and
leaves the whole state as it was: the filesystem (the target's bytes and mode, and every other
file and directory) and the output. -/
theorem apply_source_idempotent_preservation (U : UnicodeTables) (E : Engine) (s : Source)
    (yaml : YamlData) (file : GoString) (w : World)
    (hreset : s.reset = false) (hexists : os.Stat w.fs file = true) :
    s.apply_source U E yaml file w = (w, Status.returned) := by
  unfold Source.apply_source
  rw [if_pos ⟨hexists, hreset⟩]

/-- The witness of C1: the user-edited `main.go` and a source created once. -/
theorem apply_source_idempotent_preservation_witness :
    source_once.reset = false ∧ os.Stat fs_user_file "main.go".toList = true ∧
    source_once.apply_source tables_ascii engine_echo yaml_my_app "main.go".toList
      ⟨fs_user_file, []⟩ = (⟨fs_user_file, []⟩, Status.returned) :=
  ⟨by decide, by decide,
    apply_source_idempotent_preservation tables_ascii engine_echo source_once yaml_my_app
      "main.go".toList ⟨fs_user_file, []⟩ (by decide) (by decide)⟩

/-- C2 (counterexample): a source with `reset == true` whose template compiles and renders,
applied to the target `gen/api.go` where `gen` is a regular file: the directory cannot be made,
the process exits, and the target does not hold the rendering. -/
theorem apply_source_regeneration_blocked :
    source_reset.reset = true ∧
    (∃ tmpl, engine_echo.Parse "gen/api.go".toList (funcs tables_ascii) source_reset.template
        = Except.ok tmpl ∧ tmpl yaml_my_app = ("package my-app".toList, none)) ∧
    (source_reset.apply_source tables_ascii engine_echo yaml_my_app "gen/api.go".toList
      ⟨fs_gen_is_file, []⟩).2 = Status.exited 1 ∧
    (source_reset.apply_source tables_ascii engine_echo yaml_my_app "gen/api.go".toList
      ⟨fs_gen_is_file, []⟩).1.fs.node "gen/api.go".toList = none := by
  refine ⟨by decide, ⟨_, rfl, by decide⟩, by decide, by decide⟩

/-- C2 (amended): for a source with `reset == true` whose template compiles and renders, and
any two states on which the call returns, the target afterwards is in both a regular file
that holds the rendering, with the same mode; what the target was before has no influence.
The nine permission bits of that mode are those of the source's rights, and the mode is the
rights when they are permission bits alone. -/
theorem apply_source_unconditional_regeneration (U : UnicodeTables) (E : Engine) (s : Source)
    (yaml : YamlData) (file : GoString) (w1 w2 : World)
    (tmpl : YamlData → GoString × Option GoString) (out : GoString)
    (hreset : s.reset = true)
    (hparse : E.Parse file (funcs U) s.template = Except.ok tmpl)
    (hrender : tmpl yaml = (out, none))
    (hret1 : (s.apply_source U E yaml file w1).2 = Status.returned)
    (hret2 : (s.apply_source U E yaml file w2).2 = Status.returned) :
    ∃ mode : Nat,
      (s.apply_source U E yaml file w1).1.fs.node file = some (Node.file out mode) ∧
      (s.apply_source U E yaml file w2).1.fs.node file = some (Node.file out mode) ∧
      mode % 512 = s.rights % 512 ∧ (s.rights < 512 → mode = s.rights) := by
  have key : ∀ w : World, (s.apply_source U E yaml file w).2 = Status.returned →
      (s.apply_source U E yaml file w).1.fs.node file
        = some (Node.file out (os.syscallMode s.rights)) := by
    intro w hret
    unfold Source.apply_source at hret ⊢
    have hno : ¬ (os.Stat w.fs file = true ∧ s.reset = false) := by simp [hreset]
    rw [if_neg hno] at hret ⊢
    simp only [hparse, hrender] at hret ⊢
    generalize (if path.Dir file ≠ ['.'] then os.MkdirAll w.fs (path.Dir file) 493
      else (w.fs, true)) = made at hret ⊢
    by_cases hmade : made.2 = false
    · rw [if_pos hmade] at hret
      cases hret
    · rw [if_neg hmade] at hret ⊢
      by_cases hopen : (os.Create made.1 file).2 = false
      · rw [if_pos hopen] at hret
        cases hret
      · rw [if_neg hopen] at hret ⊢
        have hopen1 : (os.Create made.1 file).2 = true := by simpa using hopen
        have hcw := create_write_chmod made.1 file out s.rights hopen1
        have hmode : ¬ (os.Chmod (os.Write (os.Create made.1 file).1 file out) file
            s.rights).2 = false := by simp [hcw.1]
        rw [if_neg hmode, if_pos hreset]
        exact hcw.2
  exact ⟨os.syscallMode s.rights, key w1 hret1, key w2 hret2, syscallMode_perm _,
    syscallMode_of_perm _⟩

/-- The witness of C2 (amended): an absent target and a stale one. With the rights 0644 the
target holds the rendering in both, with the mode 0644; with the rights written 01644 it holds
the rendering in both, with one mode whose permission bits are 0644. -/
theorem apply_source_unconditional_regeneration_witness :
    ((source_reset.apply_source tables_ascii engine_echo yaml_my_app "gen/api.go".toList
        ⟨fs_empty, []⟩).1.fs.node "gen/api.go".toList
          = some (Node.file "package my-app".toList 420) ∧
      (source_reset.apply_source tables_ascii engine_echo yaml_my_app "gen/api.go".toList
        ⟨fs_old_api, []⟩).1.fs.node "gen/api.go".toList
          = some (Node.file "package my-app".toList 420)) ∧
    (∃ mode : Nat,
      (source_wide_rights.apply_source tables_ascii engine_echo yaml_my_app
        "gen/api.go".toList ⟨fs_empty, []⟩).1.fs.node "gen/api.go".toList
          = some (Node.file "package my-app".toList mode) ∧
      (source_wide_rights.apply_source tables_ascii engine_echo yaml_my_app
        "gen/api.go".toList ⟨fs_old_api, []⟩).1.fs.node "gen/api.go".toList
          = some (Node.file "package my-app".toList mode) ∧
      mode % 512 = 420) := by
  refine ⟨?_, ?_⟩
  · obtain ⟨mode, h1, h2, _, h4⟩ :=
      apply_source_unconditional_regeneration tables_ascii engine_echo source_reset
        yaml_my_app "gen/api.go".toList ⟨fs_empty, []⟩ ⟨fs_old_api, []⟩ _
        "package my-app".toList (by decide) rfl (by decide) (by decide) (by decide)
    have hm : mode = 420 := h4 (by decide)
    subst hm
    exact ⟨h1, h2⟩
  · obtain ⟨mode, h1, h2, h3, _⟩ :=
      apply_source_unconditional_regeneration tables_ascii engine_echo source_wide_rights
        yaml_my_app "gen/api.go".toList ⟨fs_empty, []⟩ ⟨fs_old_api, []⟩ _
        "package my-app".toList (by decide) rfl (by decide) (by decide) (by decide)
    exact ⟨mode, h1, h2, h3⟩

/-! ## Lemmas on prefixes and occurrences -/

/-- A prefix of `a ++ b` is a prefix of `a`, or runs into `b`. -/
theorem prefix_append_cases {t a b : GoString} (h : t <+: a ++ b) :
    t <+: a ∨ ∃ k, k ≠ [] ∧ t = a ++ k ∧ k <+: b := by
  induction a generalizing t with
  | nil =>
    cases t with
    | nil => exact Or.inl (List.nil_prefix)
    | cons c t' => exact Or.inr ⟨c :: t', by simp, by simp, by simpa using h⟩
  | cons x a ih =>
    cases t with
    | nil => exact Or.inl (List.nil_prefix)
    | cons c t' =>
      rw [List.cons_append, List.cons_prefix_cons] at h
      rcases ih h.2 with h1 | ⟨k, hk, he, hp⟩
      · exact Or.inl (List.cons_prefix_cons.2 ⟨h.1, h1⟩)
      · exact Or.inr ⟨k, hk, by rw [h.1, he, List.cons_append], hp⟩

/-- An occurrence in `a ++ b` lies in `b`, or starts at a position of `a`. -/
theorem infix_append_cases {t a b : GoString} (h : t <:+: a ++ b) :
    t <:+: b ∨ ∃ k, k < a.length ∧ t <+: a.drop k ++ b := by
  induction a with
  | nil => exact Or.inl (by simpa using h)
  | cons x a ih =>
    rw [List.cons_append, List.infix_cons_iff] at h
    rcases h with h | h
    · exact Or.inr ⟨0, by simp, by simpa using h⟩
    · rcases ih h with h1 | ⟨k, hk, hp⟩
      · exact Or.inl h1
      · exact Or.inr ⟨k + 1, by simpa using hk, by simpa using hp⟩

/-- An occurrence in `a ++ c :: b` of a text without `c` lies in `a` or in `b`. -/
theorem infix_of_append_cons {t a b : GoString} {c : Char} (hc : c ∉ t)
    (h : t <:+: a ++ c :: b) : t <:+: a ∨ t <:+: b := by
  induction a with
  | nil =>
    rw [List.nil_append, List.infix_cons_iff] at h
    rcases h with h | h
    · cases t with
      | nil => exact Or.inr (List.nil_infix)
      | cons d t' =>
        rw [List.cons_prefix_cons] at h
        exact absurd (by rw [h.1]; exact List.mem_cons_self _ _) hc
    · exact Or.inr h
  | cons x a ih =>
    rw [List.cons_append, List.infix_cons_iff] at h
    rcases h with h | h
    · have h' : t <+: (x :: a) ++ c :: b := by simpa using h
      rcases prefix_append_cases h' with h1 | ⟨k, hk, he, hp⟩
      · exact Or.inl h1.isInfix
      · cases k with
        | nil => exact absurd rfl hk
        | cons d k' =>
          rw [List.cons_prefix_cons] at hp
          exact absurd (by rw [he, hp.1]; simp) hc
    · rcases ih h with h1 | h1
      · exact Or.inl (List.infix_cons_iff.2 (Or.inr h1))
      · exact Or.inr h1

/-- A text that does not occur in `a` nor in `b` and lacks `c` does not occur in
`a ++ c :: b`. -/
theorem not_infix_append_cons {t a b : GoString} {c : Char} (hc : c ∉ t)
    (ha : ¬ t <:+: a) (hb : ¬ t <:+: b) : ¬ t <:+: a ++ c :: b :=
  fun h => (infix_of_append_cons hc h).elim ha hb

theorem not_infix_of_suffix {t u s : GoString} (hs : u <:+ s) (h : ¬ t <:+: s) : ¬ t <:+: u :=
  fun hu => h (hu.trans hs.isInfix)

/-! ## Lemmas on `strings.Replace` -/

namespace strings

theorem replaceAux_stable (old new : GoString) (hold : old ≠ []) :
    ∀ (n m : Nat) (s : GoString), s.length ≤ n → s.length ≤ m →
      replaceAux old new n s = replaceAux old new m s := by
  intro n
  induction n with
  | zero =>
    intro m s hn _
    have hs : s = [] := List.length_eq_zero.1 (Nat.le_zero.1 hn)
    subst hs
    cases m with
    | zero => rfl
    | succ m =>
      cases old with
      | nil => exact absurd rfl hold
      | cons a old' => simp [replaceAux]
  | succ n ih =>
    intro m s hn hm
    cases m with
    | zero =>
      have hs : s = [] := List.length_eq_zero.1 (Nat.le_zero.1 hm)
      subst hs
      cases old with
      | nil => exact absurd rfl hold
      | cons a old' => simp [replaceAux]
    | succ m =>
      simp only [replaceAux]
      by_cases hp : old.isPrefixOf s = true
      · rw [if_pos hp, if_pos hp]
        have hpre : old <+: s := List.isPrefixOf_iff_prefix.1 hp
        have hlen : 0 < old.length := List.length_pos.2 hold
        have hle := hpre.length_le
        have hd : (s.drop old.length).length ≤ n := by
          rw [List.length_drop]; omega
        have hd' : (s.drop old.length).length ≤ m := by
          rw [List.length_drop]; omega
        rw [ih m _ hd hd']
      · rw [if_neg hp, if_neg hp]
        cases s with
        | nil => rfl
        | cons c cs =>
          have h1 : cs.length ≤ n := by simpa using hn
          have h2 : cs.length ≤ m := by simpa using hm
          simp only []
          rw [ih m cs h1 h2]

theorem Replace_nil (old new : GoString) (hold : old ≠ []) : Replace [] old new = [] := by
  simp [Replace, hold, replaceAux]

/-- An occurrence at the head is replaced, and the scan resumes after it. -/
theorem Replace_append (old new t : GoString) (hold : old ≠ []) :
    Replace (old ++ t) old new = new ++ Replace t old new := by
  have hlen : 0 < old.length := List.length_pos.2 hold
  have hp : old.isPrefixOf (old ++ t) = true :=
    List.isPrefixOf_iff_prefix.2 (List.prefix_append _ _)
  unfold Replace
  rw [if_neg hold, if_neg hold]
  have hs : (old ++ t).length = (old.length + t.length - 1) + 1 := by
    rw [List.length_append]; omega
  rw [hs]
  simp only [replaceAux]
  rw [if_pos hp, List.drop_left]
  rw [replaceAux_stable old new hold _ t.length t (by omega) (Nat.le_refl _)]

/-- Where there is no occurrence at the head, one character is copied. -/
theorem Replace_cons (old new : GoString) (c : Char) (cs : GoString) (hold : old ≠ [])
    (hp : ¬ old <+: c :: cs) :
    Replace (c :: cs) old new = c :: Replace cs old new := by
  have hp' : ¬ old.isPrefixOf (c :: cs) = true := fun h => hp (List.isPrefixOf_iff_prefix.1 h)
  unfold Replace
  rw [if_neg hold, if_neg hold]
  simp only [List.length_cons, replaceAux]
  rw [if_neg hp']

/-- A text without occurrence of `old` is left as it is. -/
theorem Replace_of_absent (old new : GoString) (hold : old ≠ []) :
    ∀ s : GoString, ¬ old <:+: s → Replace s old new = s := by
  intro s
  induction s with
  | nil => intro _; exact Replace_nil old new hold
  | cons c cs ih =>
    intro h
    rw [Replace_cons old new c cs hold (fun hp => h hp.isInfix)]
    rw [ih (fun hi => h (List.infix_cons_iff.2 (Or.inr hi)))]

/-- The scan copies a text `a` in none of whose positions an occurrence of `old` starts. -/
theorem Replace_skip (old new : GoString) (hold : old ≠ []) (x : GoString) :
    ∀ a : GoString, (∀ k, k < a.length → ¬ old <+: a.drop k ++ x) →
      Replace (a ++ x) old new = a ++ Replace x old new := by
  intro a
  induction a with
  | nil => intro _; rfl
  | cons c a ih =>
    intro h
    have h0 : ¬ old <+: c :: (a ++ x) := by simpa using h 0 (by simp)
    have ih' := ih (fun k hk => by simpa using h (k + 1) (by simpa using hk))
    rw [List.cons_append, Replace_cons old new c _ hold h0, ih', List.cons_append]

/-- The scan of `a ++ b` is the scan of `a` followed by the scan of `b` when `b` starts with a
character that `old` does not contain. -/
theorem Replace_append_of_head (old new : GoString) (hold : old ≠ []) (b : GoString)
    (hb : ∀ h, b.head? = some h → h ∉ old) :
    ∀ (n : Nat) (a : GoString), a.length ≤ n →
      Replace (a ++ b) old new = Replace a old new ++ Replace b old new := by
  intro n
  induction n with
  | zero =>
    intro a ha
    have : a = [] := List.length_eq_zero.1 (Nat.le_zero.1 ha)
    subst this
    simp [Replace_nil old new hold]
  | succ n ih =>
    intro a ha
    cases a with
    | nil => simp [Replace_nil old new hold]
    | cons c a' =>
      by_cases hp : old <+: c :: a'
      · obtain ⟨t, ht⟩ := hp
        have hlen : 0 < old.length := List.length_pos.2 hold
        have hlt : t.length ≤ n := by
          have := congrArg List.length ht
          simp only [List.length_append, List.length_cons] at this
          simp only [List.length_cons] at ha
          omega
        rw [← ht, List.append_assoc, Replace_append old new _ hold,
          Replace_append old new _ hold, ih t hlt, List.append_assoc]
      · have hp2 : ¬ old <+: (c :: a') ++ b := by
          intro h
          rcases prefix_append_cases h with h1 | ⟨k, hk, he, hkb⟩
          · exact hp h1
          · cases k with
            | nil => exact absurd rfl hk
            | cons d k' =>
              cases b with
              | nil => simp at hkb
              | cons e b' =>
                rw [List.cons_prefix_cons] at hkb
                have : e ∈ old := by rw [he, hkb.1]; simp
                exact hb e rfl this
        have ha' : a'.length ≤ n := by simpa using ha
        rw [List.cons_append] at hp2 ⊢
        rw [Replace_cons old new c _ hold hp2, Replace_cons old new c _ hold hp, ih a' ha',
          List.cons_append]

/-- The scan of `a ++ b` is the scan of `a` followed by the scan of `b` when `a` ends with a
character that `old` does not contain. -/
theorem Replace_append_of_last (old new : GoString) (hold : old ≠ []) (b : GoString) :
    ∀ (n : Nat) (a : GoString), a.length ≤ n → (∀ l, a.getLast? = some l → l ∉ old) →
      Replace (a ++ b) old new = Replace a old new ++ Replace b old new := by
  intro n
  induction n with
  | zero =>
    intro a ha _
    have : a = [] := List.length_eq_zero.1 (Nat.le_zero.1 ha)
    subst this
    simp [Replace_nil old new hold]
  | succ n ih =>
    intro a ha hl
    cases a with
    | nil => simp [Replace_nil old new hold]
    | cons c a' =>
      by_cases hp : old <+: c :: a'
      · obtain ⟨t, ht⟩ := hp
        have hlen : 0 < old.length := List.length_pos.2 hold
        have hlt : t.length ≤ n := by
          have := congrArg List.length ht
          simp only [List.length_append, List.length_cons] at this
          simp only [List.length_cons] at ha
          omega
        have hlast : ∀ l, t.getLast? = some l → l ∉ old := by
          intro l hl'
          apply hl l
          rw [← ht]
          cases t with
          | nil => simp at hl'
          | cons d t' => rw [List.getLast?_append_of_ne_nil _ (by simp)]; exact hl'
        rw [← ht, List.append_assoc, Replace_append old new _ hold,
          Replace_append old new _ hold, ih t hlt hlast, List.append_assoc]
      · have hp2 : ¬ old <+: (c :: a') ++ b := by
          intro h
          rcases prefix_append_cases h with h1 | ⟨k, hk, he, hkb⟩
          · exact hp h1
          · have hmem : (c :: a').getLast (by simp) ∈ old := by
              rw [he]
              exact List.mem_append_left _ (List.getLast_mem _)
            exact hl _ (List.getLast?_eq_getLast _ (by simp)) hmem
        have ha' : a'.length ≤ n := by simpa using ha
        have hlast : ∀ l, a'.getLast? = some l → l ∉ old := by
          intro l hl'
          apply hl l
          cases a' with
          | nil => simp at hl'
          | cons d t' => rw [List.getLast?_cons_cons]; exact hl'
        rw [List.cons_append] at hp2 ⊢
        rw [Replace_cons old new c _ hold hp2, Replace_cons old new c _ hold hp,
          ih a' ha' hlast, List.cons_append]

end strings

/-! ## Lemmas on the marker pattern -/

theorem optSpace_suffix (t : GoString) : optSpace t <:+ t := by
  unfold optSpace
  split
  · exact List.suffix_cons _ _
  · exact List.suffix_refl _

theorem matchMarker_some {s r : GoString} (h : matchMarker s = some r) :
    ∃ t, s = marker ++ t ∧ r = optSpace t := by
  unfold matchMarker at h
  by_cases hp : marker.isPrefixOf s = true
  · rw [if_pos hp] at h
    obtain ⟨t, ht⟩ := List.isPrefixOf_iff_prefix.1 hp
    refine ⟨t, ht.symm, ?_⟩
    rw [← ht, List.drop_left] at h
    exact (Option.some.inj h).symm
  · rw [if_neg hp] at h
    cases h

theorem matchMarker_append (t : GoString) : matchMarker (marker ++ t) = some (optSpace t) := by
  unfold matchMarker
  rw [if_pos (List.isPrefixOf_iff_prefix.2 (List.prefix_append _ _)), List.drop_left]

theorem matchMarker_none {s : GoString} (h : ¬ marker <+: s) : matchMarker s = none := by
  unfold matchMarker
  rw [if_neg (fun hp => h (List.isPrefixOf_iff_prefix.1 hp))]

/-- A match of the pattern is a run of characters other than newline, the marker, and at most
one space; the result is what follows. -/
theorem matchVars_sound : ∀ (s r : GoString), matchVars s = some r →
    ∃ P t, (∀ c ∈ P, c ≠ '\n') ∧ s = P ++ marker ++ t ∧ r = optSpace t := by
  intro s
  induction s with
  | nil =>
    intro r h
    obtain ⟨t, ht, hr⟩ := matchMarker_some (by simpa [matchVars] using h)
    exact ⟨[], t, by simp, by simpa using ht, hr⟩
  | cons c cs ih =>
    intro r h
    unfold matchVars at h
    by_cases hc : c ≠ '\n'
    · rw [if_pos hc] at h
      cases hm : matchVars cs with
      | some r' =>
        rw [hm] at h
        obtain ⟨P, t, hP, hs, hr⟩ := ih r' hm
        refine ⟨c :: P, t, ?_, by rw [hs]; simp, ?_⟩
        · intro d hd
          rcases List.mem_cons.1 hd with h1 | h1
          · rw [h1]; exact hc
          · exact hP d h1
        · rw [← Option.some.inj h]; exact hr
      | none =>
        rw [hm] at h
        obtain ⟨t, ht, hr⟩ := matchMarker_some h
        exact ⟨[], t, by simp, by simpa using ht, hr⟩
    · rw [if_neg hc] at h
      obtain ⟨t, ht, hr⟩ := matchMarker_some h
      exact ⟨[], t, by simp, by simpa using ht, hr⟩

theorem matchVars_occurs {s r : GoString} (h : matchVars s = some r) : marker <:+: s := by
  obtain ⟨P, t, _, hs, _⟩ := matchVars_sound s r h
  exact ⟨P, t, hs.symm⟩

theorem matchVars_suffix {s r : GoString} (h : matchVars s = some r) : r <:+ s := by
  obtain ⟨P, t, _, hs, hr⟩ := matchVars_sound s r h
  rw [hs, hr]
  exact (optSpace_suffix t).trans (List.suffix_append _ _)

theorem matchVars_length {s r : GoString} (h : matchVars s = some r) : r.length < s.length := by
  obtain ⟨P, t, _, hs, hr⟩ := matchVars_sound s r h
  have h1 := (optSpace_suffix t).length_le
  have h2 : marker.length = 14 := by decide
  rw [hs, hr]
  simp only [List.length_append]
  omega

/-- A match after a character that is not a newline is a match from that character. -/
theorem matchVars_cons {c : Char} {cs r : GoString} (hc : c ≠ '\n')
    (h : matchVars cs = some r) : matchVars (c :: cs) = some r := by
  rw [matchVars, if_pos hc, h]

theorem matchVars_tail_none {c : Char} {cs : GoString} (hc : c ≠ '\n')
    (h : matchVars (c :: cs) = none) : matchVars cs = none := by
  cases hm : matchVars cs with
  | none => rfl
  | some r => rw [matchVars_cons hc hm] at h; cases h

theorem matchVars_append {P X r : GoString} (hP : ∀ c ∈ P, c ≠ '\n')
    (h : matchVars X = some r) : matchVars (P ++ X) = some r := by
  induction P with
  | nil => exact h
  | cons c P ih =>
    rw [List.cons_append]
    exact matchVars_cons (hP c (List.mem_cons_self _ _))
      (ih (fun d hd => hP d (List.mem_cons_of_mem _ hd)))

theorem not_prefix_line {t L rest : GoString} (ht : '\n' ∉ t) (hL : ¬ t <:+: L)
    (hrest : lineEnd rest) : ¬ t <+: L ++ rest := by
  intro h
  rcases prefix_append_cases h with h1 | ⟨k, hk, he, hkb⟩
  · exact hL h1.isInfix
  · rcases hrest with hr | hr
    · rw [hr] at hkb
      exact hk (List.prefix_nil.1 hkb)
    · cases rest with
      | nil => simp at hr
      | cons e rest' =>
        cases k with
        | nil => exact hk rfl
        | cons d k' =>
          rw [List.cons_prefix_cons] at hkb
          simp only [List.head?_cons, Option.some.injEq] at hr
          apply ht
          rw [he, hkb.1, hr]
          simp

theorem newline_not_mem_marker : '\n' ∉ marker := by decide

/-- The pattern does not match at the head of a line without marker. -/
theorem matchVars_none_of_line : ∀ (L rest : GoString), ¬ marker <:+: L → lineEnd rest →
    matchVars (L ++ rest) = none := by
  intro L
  induction L with
  | nil =>
    intro rest _ hrest
    have hnp : ¬ marker <+: [] ++ rest :=
      @not_prefix_line marker [] rest newline_not_mem_marker (by decide) hrest
    have hm : matchMarker rest = none := matchMarker_none (by simpa using hnp)
    rcases hrest with hr | hr
    · rw [hr] at hm ⊢
      simpa [matchVars] using hm
    · cases rest with
      | nil => simp at hr
      | cons e rest' =>
        simp only [List.head?_cons, Option.some.injEq] at hr
        subst hr
        rw [List.nil_append, matchVars]
        simpa using hm
  | cons c L ih =>
    intro rest hL hrest
    have hm : matchMarker (c :: L ++ rest) = none :=
      matchMarker_none (not_prefix_line newline_not_mem_marker hL hrest)
    have hL' : ¬ marker <:+: L := fun h => hL (List.infix_cons_iff.2 (Or.inr h))
    rw [List.cons_append, matchVars]
    by_cases hc : c ≠ '\n'
    · rw [if_pos hc, ih rest hL' hrest]
      exact hm
    · rw [if_neg hc]
      exact hm

theorem matchVars_none_of_absent {s : GoString} (h : ¬ marker <:+: s) :
    matchVars s = none := by
  simpa using matchVars_none_of_line s [] h (Or.inl rfl)

/-- The pattern matched at a marker after which the line has no other marker: the match ends
after that marker and one space, if any. -/
theorem matchVars_marker (t : GoString) (h : matchVars (marker.tail ++ t) = none) :
    matchVars (marker ++ t) = some (optSpace t) := by
  have hm : marker = '/' :: marker.tail := by decide
  have h1 : matchVars ('/' :: (marker.tail ++ t)) = matchMarker ('/' :: (marker.tail ++ t)) := by
    rw [matchVars, if_pos (by decide), h]
  have h2 : '/' :: (marker.tail ++ t) = marker ++ t := by
    rw [← List.cons_append, ← hm]
  rw [h2] at h1
  rw [h1, matchMarker_append]

/-! ## Lemmas on `ReplaceAllLiteralString` -/

theorem replaceVarsAux_stable (repl : GoString) :
    ∀ (n m : Nat) (s : GoString), s.length ≤ n → s.length ≤ m →
      replaceVarsAux repl n s = replaceVarsAux repl m s := by
  intro n
  induction n with
  | zero =>
    intro m s hn _
    have hs : s = [] := List.length_eq_zero.1 (Nat.le_zero.1 hn)
    subst hs
    cases m with
    | zero => rfl
    | succ m =>
      have : matchVars [] = none := by decide
      simp [replaceVarsAux, this]
  | succ n ih =>
    intro m s hn hm
    cases m with
    | zero =>
      have hs : s = [] := List.length_eq_zero.1 (Nat.le_zero.1 hm)
      subst hs
      have : matchVars [] = none := by decide
      simp [replaceVarsAux, this]
    | succ m =>
      simp only [replaceVarsAux]
      cases hmv : matchVars s with
      | some r =>
        have hlt := matchVars_length hmv
        simp only []
        rw [ih m r (by omega) (by omega)]
      | none =>
        cases s with
        | nil => rfl
        | cons c cs =>
          simp only []
          rw [ih m cs (by simpa using hn) (by simpa using hm)]

theorem ReplaceAll_nil (repl : GoString) : ReplaceAllLiteralString [] repl = [] := rfl

/-- A match at the head is replaced, and the scan resumes after it. -/
theorem ReplaceAll_match {s r : GoString} (repl : GoString) (h : matchVars s = some r) :
    ReplaceAllLiteralString s repl = repl ++ ReplaceAllLiteralString r repl := by
  have hlt := matchVars_length h
  unfold ReplaceAllLiteralString
  have hs : s.length = (s.length - 1) + 1 := by omega
  rw [hs]
  simp only [replaceVarsAux, h]
  rw [replaceVarsAux_stable repl _ r.length r (by omega) (Nat.le_refl _)]

/-- Where the pattern does not match at the head, one character is copied. -/
theorem ReplaceAll_cons {c : Char} {cs : GoString} (repl : GoString)
    (h : matchVars (c :: cs) = none) :
    ReplaceAllLiteralString (c :: cs) repl = c :: ReplaceAllLiteralString cs repl := by
  unfold ReplaceAllLiteralString
  simp only [List.length_cons, replaceVarsAux, h]

/-- The scan copies a line, or the start of one, that has no marker. -/
theorem ReplaceAll_line (repl : GoString) : ∀ (L rest : GoString), ¬ marker <:+: L →
    lineEnd rest →
    ReplaceAllLiteralString (L ++ rest) repl = L ++ ReplaceAllLiteralString rest repl := by
  intro L
  induction L with
  | nil => intro rest _ _; rfl
  | cons c L ih =>
    intro rest hL hrest
    have hL' : ¬ marker <:+: L := fun h => hL (List.infix_cons_iff.2 (Or.inr h))
    have hnone := matchVars_none_of_line (c :: L) rest hL hrest
    rw [List.cons_append] at hnone ⊢
    rw [ReplaceAll_cons repl hnone, ih rest hL' hrest, List.cons_append]

/-- A text without marker is left as it is. -/
theorem ReplaceAll_of_absent (repl : GoString) {s : GoString} (h : ¬ marker <:+: s) :
    ReplaceAllLiteralString s repl = s := by
  simpa [ReplaceAll_nil] using ReplaceAll_line repl s [] h (Or.inl rfl)

/-! ## The preprocessor on a marker line -/

namespace strings

/-- The characters of a replaced text come from the text or from the replacement. -/
theorem mem_Replace (old new : GoString) (hold : old ≠ []) (c : Char) :
    ∀ (n : Nat) (s : GoString), s.length ≤ n → c ∈ Replace s old new → c ∈ s ∨ c ∈ new := by
  intro n
  induction n with
  | zero =>
    intro s hs h
    have : s = [] := List.length_eq_zero.1 (Nat.le_zero.1 hs)
    subst this
    rw [Replace_nil old new hold] at h
    exact Or.inl h
  | succ n ih =>
    intro s hs h
    cases s with
    | nil =>
      rw [Replace_nil old new hold] at h
      exact Or.inl h
    | cons d s' =>
      by_cases hp : old <+: d :: s'
      · obtain ⟨t, ht⟩ := hp
        have hlen : 0 < old.length := List.length_pos.2 hold
        have hlt : t.length ≤ n := by
          have := congrArg List.length ht
          simp only [List.length_append, List.length_cons] at this
          simp only [List.length_cons] at hs
          omega
        rw [← ht, Replace_append old new _ hold] at h
        rcases List.mem_append.1 h with h1 | h1
        · exact Or.inr h1
        · rcases ih t hlt h1 with h2 | h2
          · exact Or.inl (by rw [← ht]; exact List.mem_append_right _ h2)
          · exact Or.inr h2
      · rw [Replace_cons old new d s' hold hp] at h
        rcases List.mem_cons.1 h with h1 | h1
        · exact Or.inl (by rw [h1]; exact List.mem_cons_self _ _)
        · rcases ih s' (by simpa using hs) h1 with h2 | h2
          · exact Or.inl (List.mem_cons_of_mem _ h2)
          · exact Or.inr h2

theorem not_mem_Replace (old new : GoString) (hold : old ≠ []) (c : Char) (s : GoString)
    (hs : c ∉ s) (hn : c ∉ new) : c ∉ Replace s old new :=
  fun h => (mem_Replace old new hold c s.length s (Nat.le_refl _) h).elim hs hn

/-- One substitution pass over a marker line: only the text before the marker can change. -/
theorem Replace_marker_line (old new : GoString) (hold : old ≠ [])
    (hslash : '/' ∉ old) (hnl : '\n' ∉ old) (hmk : ¬ old <:+: marker ++ [' '])
    (hcolon : ':' ∉ old) (hsp : ' ' ∉ old)
    (pre P S R : GoString) (hpre : lineStart pre) (hS : S = [] ∨ S = [' '])
    (hpre' : ¬ old <:+: pre) (hR : ¬ old <:+: R) :
    Replace (pre ++ (P ++ (marker ++ (S ++ R)))) old new =
      pre ++ (Replace P old new ++ (marker ++ (S ++ R))) := by
  have h1 : Replace (pre ++ (P ++ (marker ++ (S ++ R)))) old new =
      Replace pre old new ++ Replace (P ++ (marker ++ (S ++ R))) old new := by
    apply Replace_append_of_last old new hold _ pre.length pre (Nat.le_refl _)
    intro l hl
    rcases hpre with h | h
    · rw [h] at hl; cases hl
    · rw [h] at hl
      rw [← Option.some.inj hl]
      exact hnl
  have h2 : Replace (P ++ (marker ++ (S ++ R))) old new =
      Replace P old new ++ Replace (marker ++ (S ++ R)) old new := by
    apply Replace_append_of_head old new hold _ _ P.length P (Nat.le_refl _)
    intro h hh
    have : (marker ++ (S ++ R)).head? = some '/' := rfl
    rw [this] at hh
    rw [← Option.some.inj hh]
    exact hslash
  have h3 : Replace ((marker ++ S) ++ R) old new =
      Replace (marker ++ S) old new ++ Replace R old new := by
    apply Replace_append_of_last old new hold _ _ (marker ++ S) (Nat.le_refl _)
    intro l hl
    rcases hS with h | h
    · subst h
      have : (marker ++ []).getLast? = some ':' := by decide
      rw [this] at hl
      rw [← Option.some.inj hl]
      exact hcolon
    · subst h
      have : (marker ++ [' ']).getLast? = some ' ' := by decide
      rw [this] at hl
      rw [← Option.some.inj hl]
      exact hsp
  have h4 : ¬ old <:+: marker ++ S := by
    rcases hS with h | h
    · subst h
      intro hi
      rw [List.append_nil] at hi
      exact hmk (hi.trans (List.prefix_append marker [' ']).isInfix)
    · subst h
      exact hmk
  rw [h1, h2, Replace_of_absent old new hold pre hpre', ← List.append_assoc marker S R, h3,
    Replace_of_absent old new hold _ h4, Replace_of_absent old new hold R hR]

end strings

theorem placeholder_facts : ∀ t ∈ placeholder_tokens,
    t ≠ [] ∧ '/' ∉ t ∧ '\n' ∉ t ∧ ¬ t <:+: marker ++ [' '] ∧ ':' ∉ t ∧ ' ' ∉ t ∧ '\\' ∉ t := by
  decide

theorem tok_plugin_mem : tok_plugin ∈ placeholder_tokens := by decide

theorem tok_name_mem : tok_name ∈ placeholder_tokens := by decide

theorem tok_underscored_mem : tok_underscored ∈ placeholder_tokens := by decide

/-- The three substitution passes of the preprocessor. -/
theorem substitution_marker_line (pre P S R : GoString) (hpre : lineStart pre)
    (hP : '\n' ∉ P) (hS : S = [] ∨ S = [' '])
    (hpre' : no_placeholder pre) (hR : no_placeholder R) :
    ∃ P', '\n' ∉ P' ∧
      strings.Replace (strings.Replace (strings.Replace (pre ++ (P ++ (marker ++ (S ++ R))))
        tok_plugin inv_plugin) tok_name inv_name) tok_underscored inv_underscored =
      pre ++ (P' ++ (marker ++ (S ++ R))) := by
  obtain ⟨a1, a2, a3, a4, a5, a6, _⟩ := placeholder_facts _ tok_plugin_mem
  obtain ⟨b1, b2, b3, b4, b5, b6, _⟩ := placeholder_facts _ tok_name_mem
  obtain ⟨c1, c2, c3, c4, c5, c6, _⟩ := placeholder_facts _ tok_underscored_mem
  refine ⟨strings.Replace (strings.Replace (strings.Replace P tok_plugin inv_plugin)
    tok_name inv_name) tok_underscored inv_underscored, ?_, ?_⟩
  · apply strings.not_mem_Replace _ _ c1 _ _ _ (by decide)
    apply strings.not_mem_Replace _ _ b1 _ _ _ (by decide)
    exact strings.not_mem_Replace _ _ a1 _ _ hP (by decide)
  · rw [strings.Replace_marker_line _ _ a1 a2 a3 a4 a5 a6 pre P S R hpre hS
        (hpre' _ tok_plugin_mem) (hR _ tok_plugin_mem),
      strings.Replace_marker_line _ _ b1 b2 b3 b4 b5 b6 pre _ S R hpre hS
        (hpre' _ tok_name_mem) (hR _ tok_name_mem),
      strings.Replace_marker_line _ _ c1 c2 c3 c4 c5 c6 pre _ S R hpre hS
        (hpre' _ tok_underscored_mem) (hR _ tok_underscored_mem)]

theorem marker_tail_facts :
    (∀ k, k < (marker.tail ++ []).length →
      ¬ marker <+: (marker.tail ++ []).drop k ∧ ¬ (marker.tail ++ []).drop k <+: marker) ∧
    (∀ k, k < (marker.tail ++ [' ']).length →
      ¬ marker <+: (marker.tail ++ [' ']).drop k ∧
        ¬ (marker.tail ++ [' ']).drop k <+: marker) := by
  decide

/-- After the marker and at most one space, a text without marker holds no further marker. -/
theorem not_infix_marker_tail (S R : GoString) (hS : S = [] ∨ S = [' '])
    (hR : ¬ marker <:+: R) : ¬ marker <:+: marker.tail ++ (S ++ R) := by
  intro h
  rw [← List.append_assoc] at h
  rcases infix_append_cases h with h1 | ⟨k, hk, hp⟩
  · exact hR h1
  · have hcmp := List.prefix_or_prefix_of_prefix hp (List.prefix_append _ R)
    rcases hS with hs | hs
    · subst hs
      have := marker_tail_facts.1 k hk
      exact hcmp.elim this.1 this.2
    · subst hs
      have := marker_tail_facts.2 k hk
      exact hcmp.elim this.1 this.2

/-- The marker pass on a marker line: the line is cut up to the marker and one space. -/
theorem ReplaceAll_marker_line (pre P S R : GoString) (hpre : lineStart pre)
    (hP : '\n' ∉ P) (hS : S = [] ∨ S = [' ']) (hpre' : ¬ marker <:+: pre)
    (hR : ¬ marker <:+: R) (hhead : S = [] → R.head? ≠ some ' ') :
    ReplaceAllLiteralString (pre ++ (P ++ (marker ++ (S ++ R)))) [] = pre ++ R := by
  have hmatch : matchVars (P ++ (marker ++ (S ++ R))) = some R := by
    have h1 : matchVars (marker ++ (S ++ R)) = some (optSpace (S ++ R)) :=
      matchVars_marker _ (matchVars_none_of_absent (not_infix_marker_tail S R hS hR))
    have h2 : optSpace (S ++ R) = R := by
      rcases hS with hs | hs
      · subst hs
        have := hhead rfl
        cases R with
        | nil => rfl
        | cons c R' =>
          have hc : c ≠ ' ' := by simpa using this
          unfold optSpace
          split
          · rename_i heq
            simp only [List.nil_append, List.cons.injEq] at heq
            exact absurd heq.1 hc
          · rfl
      · subst hs
        rfl
    rw [h2] at h1
    exact matchVars_append (fun c hc e => hP (e ▸ hc)) h1
  have hcut : ReplaceAllLiteralString (P ++ (marker ++ (S ++ R))) [] = R := by
    rw [ReplaceAll_match [] hmatch, ReplaceAll_of_absent [] hR]
    rfl
  rcases hpre with h0 | h0
  · subst h0
    simpa using hcut
  · rcases List.eq_nil_or_concat pre with h1 | ⟨L, b, h1⟩
    · subst h1
      simpa using hcut
    · rw [List.concat_eq_append] at h1
      subst h1
      have hb : b = '\n' := by simpa using h0
      subst hb
      have hL : ¬ marker <:+: L := fun h => hpre' (h.trans (List.prefix_append _ _).isInfix)
      have hnone : matchVars ('\n' :: (P ++ (marker ++ (S ++ R)))) = none := by
        rw [matchVars, if_neg (by simp)]
        apply matchMarker_none
        intro hp
        have hm : marker = '/' :: marker.tail := by decide
        rw [hm, List.cons_prefix_cons] at hp
        exact absurd hp.1 (by decide)
      have hend : lineEnd (['\n'] ++ (P ++ (marker ++ (S ++ R)))) := Or.inr rfl
      rw [List.append_assoc, ReplaceAll_line [] L _ hL hend]
      rw [List.singleton_append, ReplaceAll_cons [] hnone, hcut]
      simp

/-- The preprocessor on a marker line: the text of the line up to the marker and one space is
removed, and the text around it, free of placeholders, markers and continuations, is kept. -/
theorem preprocess_marker_line (pre P S R : GoString) (hpre : lineStart pre)
    (hP : '\n' ∉ P) (hS : S = [] ∨ S = [' '])
    (hpre1 : no_placeholder pre) (hpre2 : ¬ marker <:+: pre)
    (hR1 : no_placeholder R) (hR2 : ¬ marker <:+: R) (hhead : S = [] → R.head? ≠ some ' ')
    (hcont : ¬ continuation <:+: pre ++ R) :
    preprocess (pre ++ (P ++ (marker ++ (S ++ R)))) = pre ++ R := by
  obtain ⟨P', hP', hsub⟩ := substitution_marker_line pre P S R hpre hP hS hpre1 hR1
  unfold preprocess
  simp only []
  rw [hsub, ReplaceAll_marker_line pre P' S R hpre hP' hS hpre2 hR2 hhead]
  exact strings.Replace_of_absent _ _ (by decide) _ hcont

/-! ## What the passes cannot create -/

namespace strings

/-- A text that starts the replaced text and lacks the first character of a non-empty
replacement starts the original text. -/
theorem prefix_of_prefix_Replace (old new : GoString) (hold : old ≠ []) (hnew : new ≠ []) :
    ∀ (n : Nat) (s t : GoString), s.length ≤ n → (∀ h, new.head? = some h → h ∉ t) →
      t <+: Replace s old new → t <+: s := by
  intro n
  induction n with
  | zero =>
    intro s t hs _ h
    have : s = [] := List.length_eq_zero.1 (Nat.le_zero.1 hs)
    subst this
    rw [Replace_nil old new hold] at h
    exact h
  | succ n ih =>
    intro s t hs hh h
    cases t with
    | nil => exact List.nil_prefix
    | cons d t' =>
      cases s with
      | nil =>
        rw [Replace_nil old new hold] at h
        exact h
      | cons c s' =>
        by_cases hp : old <+: c :: s'
        · obtain ⟨r, hr⟩ := hp
          rw [← hr, Replace_append old new _ hold] at h
          cases new with
          | nil => exact absurd rfl hnew
          | cons e new' =>
            rw [List.cons_append, List.cons_prefix_cons] at h
            exact absurd (List.mem_cons_self d t') (h.1 ▸ hh e rfl)
        · rw [Replace_cons old new c s' hold hp, List.cons_prefix_cons] at h
          rw [List.cons_prefix_cons]
          refine ⟨h.1, ih s' t' (by simpa using hs) ?_ h.2⟩
          intro e he hmem
          exact hh e he (List.mem_cons_of_mem _ hmem)

/-- The same, after a text `u` that the scan has copied. -/
theorem prefix_append_of_prefix_append_Replace (old new : GoString) (hold : old ≠ [])
    (hnew : new ≠ []) (u s t : GoString) (hh : ∀ h, new.head? = some h → h ∉ t)
    (h : t <+: u ++ Replace s old new) : t <+: u ++ s := by
  rcases prefix_append_cases h with h1 | ⟨k, _, he, hk⟩
  · exact h1.trans (List.prefix_append _ _)
  · have hk' : k <+: s := by
      apply prefix_of_prefix_Replace old new hold hnew s.length s k (Nat.le_refl _) _ hk
      intro e he' hmem
      exact hh e he' (by rw [he]; exact List.mem_append_right _ hmem)
    rw [he]
    exact (List.prefix_append_right_inj u).2 hk'

/-- A pass with a non-empty replacement creates no occurrence of a text `m` that lacks the
first character of the replacement and whose first character the replacement lacks. -/
theorem infix_of_infix_Replace (old new m : GoString) (hold : old ≠ []) (hnew : new ≠ [])
    (hh : ∀ h, new.head? = some h → h ∉ m) (hm : ∀ h, m.head? = some h → h ∉ new) :
    ∀ (n : Nat) (s : GoString), s.length ≤ n → m <:+: Replace s old new → m <:+: s := by
  intro n
  induction n with
  | zero =>
    intro s hs h
    have : s = [] := List.length_eq_zero.1 (Nat.le_zero.1 hs)
    subst this
    rw [Replace_nil old new hold] at h
    exact h
  | succ n ih =>
    intro s hs h
    cases s with
    | nil =>
      rw [Replace_nil old new hold] at h
      exact h
    | cons c s' =>
      by_cases hp : old <+: c :: s'
      · obtain ⟨r, hr⟩ := hp
        have hlen : 0 < old.length := List.length_pos.2 hold
        have hlt : r.length ≤ n := by
          have := congrArg List.length hr
          simp only [List.length_append, List.length_cons] at this
          simp only [List.length_cons] at hs
          omega
        rw [← hr, Replace_append old new _ hold] at h
        rcases infix_append_cases h with h1 | ⟨k, hk, hpk⟩
        · rw [← hr]
          exact (ih r hlt h1).trans (List.suffix_append _ _).isInfix
        · cases m with
          | nil => exact List.nil_infix
          | cons d m' =>
            rw [List.drop_eq_getElem_cons hk, List.cons_append, List.cons_prefix_cons] at hpk
            exact absurd (hpk.1 ▸ List.getElem_mem hk) (hm d rfl)
      · rw [Replace_cons old new c s' hold hp, List.infix_cons_iff] at h
        rcases h with h1 | h1
        · rw [← Replace_cons old new c s' hold hp] at h1
          exact (prefix_of_prefix_Replace old new hold hnew _ _ m (Nat.le_refl _) hh h1).isInfix
        · exact List.infix_cons_iff.2 (Or.inr (ih s' (by simpa using hs) h1))

/-- After the continuation pass, a continuation is left only where a backslash came before a
continuation. -/
theorem not_continuation_infix_Replace :
    ∀ (n : Nat) (s : GoString), s.length ≤ n → ¬ escaped_continuation <:+: s →
      ¬ continuation <:+: Replace s continuation [] := by
  have hold : continuation ≠ [] := by decide
  intro n
  induction n with
  | zero =>
    intro s hs _ h
    have : s = [] := List.length_eq_zero.1 (Nat.le_zero.1 hs)
    subst this
    rw [Replace_nil _ _ hold] at h
    exact absurd (List.infix_nil.1 h) hold
  | succ n ih =>
    intro s hs hesc h
    cases s with
    | nil =>
      rw [Replace_nil _ _ hold] at h
      exact absurd (List.infix_nil.1 h) hold
    | cons c s' =>
      by_cases hp : continuation <+: c :: s'
      · obtain ⟨r, hr⟩ := hp
        have hlt : r.length ≤ n := by
          have := congrArg List.length hr
          simp only [List.length_append, List.length_cons, continuation] at this
          simp only [List.length_cons] at hs
          omega
        rw [← hr, Replace_append _ _ _ hold, List.nil_append] at h
        refine ih r hlt (fun hi => hesc ?_) h
        rw [← hr]
        exact hi.trans (List.suffix_append _ _).isInfix
      · have hs' : s'.length ≤ n := by simpa using hs
        have hesc' : ¬ escaped_continuation <:+: s' :=
          fun hi => hesc (List.infix_cons_iff.2 (Or.inr hi))
        rw [Replace_cons _ _ c s' hold hp, List.infix_cons_iff] at h
        rcases h with h1 | h1
        · have h1' : '\\' :: ['\n'] <+: c :: Replace s' continuation [] := h1
          rw [List.cons_prefix_cons] at h1'
          obtain ⟨hc, h2⟩ := h1'
          cases s' with
          | nil =>
            rw [Replace_nil _ _ hold] at h2
            simp at h2
          | cons d s'' =>
            by_cases hp' : continuation <+: d :: s''
            · apply hesc
              obtain ⟨r, hr⟩ := hp'
              rw [← hr, ← hc]
              exact ⟨[], r, by simp [escaped_continuation, continuation]⟩
            · rw [Replace_cons _ _ d s'' hold hp', List.cons_prefix_cons] at h2
              apply hp
              rw [← hc, ← h2.1]
              exact ⟨s'', rfl⟩
        · exact ih s' hs' hesc' h1

end strings

/-- A text that starts the output of the marker pass, with no newline before its last
character, starts the input when the pattern does not match there. -/
theorem prefix_of_prefix_ReplaceAll : ∀ (t s : GoString), (∀ c ∈ t.dropLast, c ≠ '\n') →
    matchVars s = none → t <+: ReplaceAllLiteralString s [] → t <+: s := by
  intro t
  induction t with
  | nil => intro s _ _ _; exact List.nil_prefix
  | cons d t' ih =>
    intro s ht hnone h
    cases s with
    | nil =>
      rw [ReplaceAll_nil] at h
      exact h
    | cons c s' =>
      rw [ReplaceAll_cons [] hnone, List.cons_prefix_cons] at h
      rw [List.cons_prefix_cons]
      refine ⟨h.1, ?_⟩
      cases t' with
      | nil => exact List.nil_prefix
      | cons e t'' =>
        have hd : d ≠ '\n' := ht d (by simp [List.dropLast])
        have hnone' : matchVars s' = none := matchVars_tail_none (h.1 ▸ hd) hnone
        apply ih s' _ hnone' h.2
        intro x hx
        exact ht x (by rw [List.dropLast_cons₂]; exact List.mem_cons_of_mem _ hx)

/-- The marker pass creates no occurrence of a text with no newline before its last
character. -/
theorem infix_of_infix_ReplaceAll (m : GoString) (hm : ∀ c ∈ m.dropLast, c ≠ '\n') :
    ∀ (n : Nat) (s : GoString), s.length ≤ n → m <:+: ReplaceAllLiteralString s [] →
      m <:+: s := by
  intro n
  induction n with
  | zero =>
    intro s hs h
    have : s = [] := List.length_eq_zero.1 (Nat.le_zero.1 hs)
    subst this
    exact h
  | succ n ih =>
    intro s hs h
    cases hmv : matchVars s with
    | some r =>
      rw [ReplaceAll_match [] hmv, List.nil_append] at h
      have hlt := matchVars_length hmv
      exact (ih r (by omega) h).trans (matchVars_suffix hmv).isInfix
    | none =>
      cases s with
      | nil => exact h
      | cons c s' =>
        rw [ReplaceAll_cons [] hmv, List.infix_cons_iff] at h
        rcases h with h1 | h1
        · rw [← ReplaceAll_cons [] hmv] at h1
          exact (prefix_of_prefix_ReplaceAll m _ hm hmv h1).isInfix
        · exact List.infix_cons_iff.2 (Or.inr (ih s' (by simpa using hs) h1))

/-! ## The substitution passes against the one-pass substitution -/

theorem substituteAux_stable :
    ∀ (n m : Nat) (s : GoString), s.length ≤ n → s.length ≤ m →
      substituteAux n s = substituteAux m s := by
  intro n
  induction n with
  | zero =>
    intro m s hn _
    have hs : s = [] := List.length_eq_zero.1 (Nat.le_zero.1 hn)
    subst hs
    cases m with
    | zero => rfl
    | succ m => rfl
  | succ n ih =>
    intro m s hn hm
    cases m with
    | zero =>
      have hs : s = [] := List.length_eq_zero.1 (Nat.le_zero.1 hm)
      subst hs
      rfl
    | succ m =>
      simp only [substituteAux]
      cases hf : placeholder_table.find? (fun p => p.1.isPrefixOf s) with
      | some p =>
        have hmem := List.mem_of_find?_eq_some hf
        have hpp := List.find?_some hf
        have hpre : p.1 <+: s := by simpa using hpp
        have hpos : 0 < p.1.length := by
          have : ∀ q ∈ placeholder_table, 0 < q.1.length := by decide
          exact this p hmem
        have hle := hpre.length_le
        simp only []
        rw [ih m _ (by rw [List.length_drop]; omega) (by rw [List.length_drop]; omega)]
      | none =>
        cases s with
        | nil => rfl
        | cons c cs =>
          simp only []
          rw [ih m cs (by simpa using hn) (by simpa using hm)]

theorem substitute_nil : substitute_placeholders [] = [] := rfl

/-- A placeholder at the head is rewritten into its invocation. -/
theorem substitute_token (p : GoString × GoString) (s r : GoString) (hs : s = p.1 ++ r)
    (hf : placeholder_table.find? (fun q => q.1.isPrefixOf s) = some p) :
    substitute_placeholders s = p.2 ++ substitute_placeholders r := by
  have hmem := List.mem_of_find?_eq_some hf
  have hpos : 0 < p.1.length := by
    have : ∀ q ∈ placeholder_table, 0 < q.1.length := by decide
    exact this p hmem
  have hlen : s.length = (p.1.length + r.length - 1) + 1 := by
    rw [hs, List.length_append]; omega
  unfold substitute_placeholders
  rw [hlen]
  simp only [substituteAux, hf]
  rw [hs, List.drop_left]
  rw [substituteAux_stable _ r.length r (by omega) (Nat.le_refl _)]

/-- Where no placeholder is at the head, one character is copied. -/
theorem substitute_cons (c : Char) (cs : GoString)
    (hf : placeholder_table.find? (fun q => q.1.isPrefixOf (c :: cs)) = none) :
    substitute_placeholders (c :: cs) = c :: substitute_placeholders cs := by
  unfold substitute_placeholders
  simp only [List.length_cons, substituteAux, hf]

/-- What it means that the placeholder occurrences of `s` do not overlap, at the head. -/
theorem disjoint_head {s : GoString} (hdis : placeholders_disjoint s) (t : GoString)
    (ht : t ∈ placeholder_tokens) (hp : t <+: s) (k : Nat) (hk0 : 0 < k) (hk : k < t.length)
    (t' : GoString) (ht' : t' ∈ placeholder_tokens) : ¬ t' <+: s.drop k := by
  intro hp'
  have h := hdis s ((List.mem_tails _ _).2 (List.suffix_refl _))
  unfold overlap_at_head at h
  rw [List.any_eq_false] at h
  have h1 := h t ht
  have hpt : t.isPrefixOf s = true := List.isPrefixOf_iff_prefix.2 hp
  rw [hpt, Bool.true_and] at h1
  revert h1
  simp only [imp_false, Bool.not_eq_true, List.any_eq_false, not_forall, Bool.not_eq_false]
  refine ⟨k - 1, List.mem_range.2 (by omega), ?_⟩
  have hk1 : k - 1 + 1 = k := by omega
  rw [hk1]
  unfold starts_placeholder
  rw [List.any_eq_true]
  exact ⟨t', ht', List.isPrefixOf_iff_prefix.2 hp'⟩

theorem disjoint_suffix {s r : GoString} (hdis : placeholders_disjoint s) (hr : r <:+ s) :
    placeholders_disjoint r := by
  intro u hu
  exact hdis u ((List.mem_tails _ _).2 (((List.mem_tails _ _).1 hu).trans hr))

/-- The scan for `old` copies a text none of whose ends starts like `old`. -/
theorem skip_of_incomparable (old a x : GoString)
    (h : ∀ k, k < a.length → ¬ old <+: a.drop k ∧ ¬ a.drop k <+: old) :
    ∀ k, k < a.length → ¬ old <+: a.drop k ++ x := by
  intro k hk hp
  have := List.prefix_or_prefix_of_prefix hp (List.prefix_append (a.drop k) x)
  exact this.elim (h k hk).1 (h k hk).2

/-- The scan for `old` copies a placeholder at the head of `s` when `old` is not there and
the placeholder occurrences of `s` do not overlap. -/
theorem skip_of_disjoint {s r : GoString} (hdis : placeholders_disjoint s) (t old : GoString)
    (ht : t ∈ placeholder_tokens) (hold : old ∈ placeholder_tokens) (hs : s = t ++ r)
    (h0 : ¬ old <+: s) : ∀ k, k < t.length → ¬ old <+: t.drop k ++ r := by
  intro k hk
  rcases Nat.eq_zero_or_pos k with hz | hpos
  · subst hz
    rw [List.drop_zero, ← hs]
    exact h0
  · have := disjoint_head hdis t ht (hs ▸ List.prefix_append t r) k hpos hk old hold
    rw [hs, List.drop_append_of_le_length (Nat.le_of_lt hk)] at this
    exact this

theorem invocation_facts :
    (∀ k, k < inv_plugin.length →
      ¬ tok_name <+: inv_plugin.drop k ∧ ¬ inv_plugin.drop k <+: tok_name) ∧
    (∀ k, k < inv_plugin.length →
      ¬ tok_underscored <+: inv_plugin.drop k ∧ ¬ inv_plugin.drop k <+: tok_underscored) ∧
    (∀ k, k < inv_name.length →
      ¬ tok_underscored <+: inv_name.drop k ∧ ¬ inv_name.drop k <+: tok_underscored) := by
  decide

theorem brace_not_mem_token : ∀ t ∈ placeholder_tokens, '\x7b' ∉ t := by decide

/-- The three passes of the preprocessor, one after the other, rewrite a text whose
placeholder occurrences do not overlap as the one-pass substitution does. -/
theorem passes_eq_substitute : ∀ (n : Nat) (s : GoString), s.length ≤ n →
    placeholders_disjoint s →
    strings.Replace (strings.Replace (strings.Replace s tok_plugin inv_plugin)
      tok_name inv_name) tok_underscored inv_underscored = substitute_placeholders s := by
  have e1 : tok_plugin ≠ [] := by decide
  have e2 : tok_name ≠ [] := by decide
  have e3 : tok_underscored ≠ [] := by decide
  have n1 : inv_plugin ≠ [] := by decide
  have n2 : inv_name ≠ [] := by decide
  have hb1 : ∀ h, inv_plugin.head? = some h → h ∉ tok_name := by decide
  have hb2 : ∀ h, inv_plugin.head? = some h → h ∉ tok_underscored := by decide
  have hb3 : ∀ h, inv_name.head? = some h → h ∉ tok_underscored := by decide
  intro n
  induction n with
  | zero =>
    intro s hs _
    have : s = [] := List.length_eq_zero.1 (Nat.le_zero.1 hs)
    subst this
    rfl
  | succ n ih =>
    intro s hs hdis
    cases s with
    | nil => rfl
    | cons c s' =>
      by_cases h1 : tok_plugin <+: c :: s'
      · obtain ⟨r, hr⟩ := h1
        have hlt : r.length ≤ n := by
          have := congrArg List.length hr
          simp only [List.length_append, List.length_cons, tok_plugin] at this
          simp only [List.length_cons] at hs
          have h12 : "__MYPLUGIN__".toList.length = 12 := by decide
          omega
        have hf : placeholder_table.find? (fun q => q.1.isPrefixOf (c :: s'))
            = some (tok_plugin, inv_plugin) := by
          have : tok_plugin.isPrefixOf (c :: s') = true :=
            List.isPrefixOf_iff_prefix.2 ⟨r, hr⟩
          simp [placeholder_table, List.find?, this]
        rw [substitute_token _ _ r hr.symm hf, ← hr, strings.Replace_append _ _ _ e1,
          strings.Replace_skip _ _ e2 _ _ (skip_of_incomparable _ _ _ invocation_facts.1),
          strings.Replace_skip _ _ e3 _ _ (skip_of_incomparable _ _ _ invocation_facts.2.1),
          ih r hlt (disjoint_suffix hdis (hr ▸ List.suffix_append _ _))]
      · by_cases h2 : tok_name <+: c :: s'
        · obtain ⟨r, hr⟩ := h2
          have hlt : r.length ≤ n := by
            have := congrArg List.length hr
            simp only [List.length_append, List.length_cons, tok_name] at this
            simp only [List.length_cons] at hs
            have h16 : "__MYPLUGINNAME__".toList.length = 16 := by decide
            omega
          have hf : placeholder_table.find? (fun q => q.1.isPrefixOf (c :: s'))
              = some (tok_name, inv_name) := by
            have ha : tok_plugin.isPrefixOf (c :: s') = false := by
              cases hx : tok_plugin.isPrefixOf (c :: s') with
              | false => rfl
              | true => exact absurd (List.isPrefixOf_iff_prefix.1 hx) h1
            have hb : tok_name.isPrefixOf (c :: s') = true :=
              List.isPrefixOf_iff_prefix.2 ⟨r, hr⟩
            simp [placeholder_table, List.find?, ha, hb]
          rw [substitute_token _ _ r hr.symm hf, ← hr,
            strings.Replace_skip _ _ e1 _ _
              (skip_of_disjoint hdis tok_name tok_plugin tok_name_mem tok_plugin_mem hr.symm h1),
            strings.Replace_append _ _ _ e2,
            strings.Replace_skip _ _ e3 _ _ (skip_of_incomparable _ _ _ invocation_facts.2.2),
            ih r hlt (disjoint_suffix hdis (hr ▸ List.suffix_append _ _))]
        · by_cases h3 : tok_underscored <+: c :: s'
          · obtain ⟨r, hr⟩ := h3
            have hlt : r.length ≤ n := by
              have := congrArg List.length hr
              simp only [List.length_append, List.length_cons, tok_underscored] at this
              simp only [List.length_cons] at hs
              have h24 : "__MYPLUGIN_UNDERSCORED__".toList.length = 24 := by decide
              omega
            have hf : placeholder_table.find? (fun q => q.1.isPrefixOf (c :: s'))
                = some (tok_underscored, inv_underscored) := by
              have ha : tok_plugin.isPrefixOf (c :: s') = false := by
                cases hx : tok_plugin.isPrefixOf (c :: s') with
                | false => rfl
                | true => exact absurd (List.isPrefixOf_iff_prefix.1 hx) h1
              have hb : tok_name.isPrefixOf (c :: s') = false := by
                cases hx : tok_name.isPrefixOf (c :: s') with
                | false => rfl
                | true => exact absurd (List.isPrefixOf_iff_prefix.1 hx) h2
              have hc : tok_underscored.isPrefixOf (c :: s') = true :=
                List.isPrefixOf_iff_prefix.2 ⟨r, hr⟩
              simp [placeholder_table, List.find?, ha, hb, hc]
            have hskip2 : ∀ k, k < tok_underscored.length →
                ¬ tok_name <+: tok_underscored.drop k
                  ++ strings.Replace r tok_plugin inv_plugin := by
              intro k hk hp
              exact skip_of_disjoint hdis tok_underscored tok_name tok_underscored_mem
                tok_name_mem hr.symm h2 k hk
                (strings.prefix_append_of_prefix_append_Replace _ _ e1 n1 _ _ _ hb1 hp)
            rw [substitute_token _ _ r hr.symm hf, ← hr,
              strings.Replace_skip _ _ e1 _ _
                (skip_of_disjoint hdis tok_underscored tok_plugin tok_underscored_mem
                  tok_plugin_mem hr.symm h1),
              strings.Replace_skip _ _ e2 _ _ hskip2,
              strings.Replace_append _ _ _ e3,
              ih r hlt (disjoint_suffix hdis (hr ▸ List.suffix_append _ _))]
          · have hf : placeholder_table.find? (fun q => q.1.isPrefixOf (c :: s')) = none := by
              have ha : tok_plugin.isPrefixOf (c :: s') = false := by
                cases hx : tok_plugin.isPrefixOf (c :: s') with
                | false => rfl
                | true => exact absurd (List.isPrefixOf_iff_prefix.1 hx) h1
              have hb : tok_name.isPrefixOf (c :: s') = false := by
                cases hx : tok_name.isPrefixOf (c :: s') with
                | false => rfl
                | true => exact absurd (List.isPrefixOf_iff_prefix.1 hx) h2
              have hc : tok_underscored.isPrefixOf (c :: s') = false := by
                cases hx : tok_underscored.isPrefixOf (c :: s') with
                | false => rfl
                | true => exact absurd (List.isPrefixOf_iff_prefix.1 hx) h3
              simp [placeholder_table, List.find?, ha, hb, hc]
            have g2 : ¬ tok_name <+: c :: strings.Replace s' tok_plugin inv_plugin := by
              intro hp
              exact h2 (strings.prefix_append_of_prefix_append_Replace _ _ e1 n1 [c] s' _ hb1 hp)
            have g3a : ¬ tok_underscored <+: c :: strings.Replace s' tok_plugin inv_plugin := by
              intro hp
              exact h3 (strings.prefix_append_of_prefix_append_Replace _ _ e1 n1 [c] s' _ hb2 hp)
            have g3 : ¬ tok_underscored <+: c :: strings.Replace
                (strings.Replace s' tok_plugin inv_plugin) tok_name inv_name := by
              intro hp
              exact g3a (strings.prefix_append_of_prefix_append_Replace _ _ e2 n2 [c] _ _ hb3 hp)
            rw [substitute_cons c s' hf, strings.Replace_cons _ _ c s' e1 h1,
              strings.Replace_cons _ _ c _ e2 g2, strings.Replace_cons _ _ c _ e3 g3,
              ih s' (by simpa using hs) (disjoint_suffix hdis (List.suffix_cons c s'))]

/-- C6: on a text without marker comment and without line continuation, whose placeholder
occurrences do not overlap, the preprocessor rewrites each occurrence of `__MYPLUGIN__`,
`__MYPLUGINNAME__` and `__MYPLUGIN_UNDERSCORED__` into its invocation and leaves all other
text as it is; and for the descriptor name `my-app` the helpers of the invocations give
`MyApp` and `my_app`, next to the name itself. -/
theorem preprocess_placeholder_substitution (U : UnicodeTables) (s : GoString)
    (hmark : ¬ marker <:+: s) (hcont : ¬ continuation <:+: s)
    (hdis : placeholders_disjoint s) :
    preprocess s = substitute_placeholders s ∧
    placeholder_table =
      [("__MYPLUGIN__".toList, "\x7b\x7b go_vars .Yaml.Name \x7d\x7d".toList),
       ("__MYPLUGINNAME__".toList, "\x7b\x7b .Yaml.Name \x7d\x7d".toList),
       ("__MYPLUGIN_UNDERSCORED__".toList,
         "\x7b\x7b go_vars_underscored .Yaml.Name \x7d\x7d".toList)] ∧
    go_vars U "my-app".toList = "MyApp".toList ∧
    yaml_my_app.Yaml.Name = "my-app".toList ∧
    go_vars_underscored "my-app".toList = "my_app".toList := by
  refine ⟨?_, rfl, rfl, rfl, by decide⟩
  have hkeep : ∀ (m old new x : GoString), old ≠ [] → new ≠ [] →
      new.head? = some '\x7b' → '\x7b' ∉ m → (∀ h, m.head? = some h → h ∉ new) →
      ¬ m <:+: x → ¬ m <:+: strings.Replace x old new := by
    intro m old new x hold hnew hhead hbrace hm hx hi
    apply hx
    apply strings.infix_of_infix_Replace old new m hold hnew _ hm x.length x (Nat.le_refl _) hi
    intro e he
    rw [hhead] at he
    rw [← Option.some.inj he]
    exact hbrace
  have hm3 : ¬ marker <:+: strings.Replace (strings.Replace (strings.Replace s
      tok_plugin inv_plugin) tok_name inv_name) tok_underscored inv_underscored := by
    apply hkeep marker _ _ _ (by decide) (by decide) (by decide) (by decide) (by decide)
    apply hkeep marker _ _ _ (by decide) (by decide) (by decide) (by decide) (by decide)
    exact hkeep marker _ _ _ (by decide) (by decide) (by decide) (by decide) (by decide) hmark
  have hc3 : ¬ continuation <:+: strings.Replace (strings.Replace (strings.Replace s
      tok_plugin inv_plugin) tok_name inv_name) tok_underscored inv_underscored := by
    apply hkeep continuation _ _ _ (by decide) (by decide) (by decide) (by decide) (by decide)
    apply hkeep continuation _ _ _ (by decide) (by decide) (by decide) (by decide) (by decide)
    exact hkeep continuation _ _ _ (by decide) (by decide) (by decide) (by decide) (by decide)
      hcont
  unfold preprocess
  simp only []
  rw [ReplaceAll_of_absent [] hm3, strings.Replace_of_absent _ _ (by decide) _ hc3]
  exact passes_eq_substitute s.length s (Nat.le_refl _) hdis

/-- The witness of C6: a text with the three placeholders. -/
theorem preprocess_placeholder_substitution_witness :
    preprocess "type __MYPLUGIN__App struct\nconst name = \"__MYPLUGINNAME__\"\nvar __MYPLUGIN_UNDERSCORED___id int".toList
      = ("type \x7b\x7b go_vars .Yaml.Name \x7d\x7dApp struct\n" ++
         "const name = \"\x7b\x7b .Yaml.Name \x7d\x7d\"\n" ++
         "var \x7b\x7b go_vars_underscored .Yaml.Name \x7d\x7d_id int").toList :=
  (preprocess_placeholder_substitution tables_ascii
    "type __MYPLUGIN__App struct\nconst name = \"__MYPLUGINNAME__\"\nvar __MYPLUGIN_UNDERSCORED___id int".toList
    (by decide) (by decide) (by decide)).1.trans (by decide)

/-- C7 (counterexample): on the line `return nil // __MYPLUGIN: note text` the preprocessor
leaves `note text`: the content before the marker is not kept, not even its first word. -/
theorem preprocess_marker_line_content_removed :
    preprocess "return nil // __MYPLUGIN: note text".toList = "note text".toList ∧
    ¬ ("return nil".toList <+: preprocess "return nil // __MYPLUGIN: note text".toList) := by
  decide

/-- C7 (amended): for every line `P ++ "// __MYPLUGIN: note text"` whose preceding content `P`
has no newline, the preprocessed text is `note text`: the marker is removed together with the
content before it, and the text after the marker is what stays on the line. -/
theorem preprocess_marker_comment_line (P : GoString) (hP : '\n' ∉ P) :
    preprocess (P ++ "// __MYPLUGIN: note text".toList) = "note text".toList := by
  have h := preprocess_marker_line [] P [' '] "note text".toList (Or.inl rfl) hP (Or.inr rfl)
    (by decide) (by decide) (by decide) (by decide) (by intro h; cases h) (by decide)
  exact h

/-- The witness of C7 (amended): the line `return nil // __MYPLUGIN: note text`. -/
theorem preprocess_marker_comment_line_witness :
    '\n' ∉ "return nil ".toList ∧
    preprocess ("return nil ".toList ++ "// __MYPLUGIN: note text".toList)
      = "note text".toList :=
  ⟨by decide, preprocess_marker_comment_line "return nil ".toList (by decide)⟩

/-- C8: every match of the pattern is a run of characters other than newline, then the marker
`// __MYPLUGIN:`, then at most one space, and it is replaced by the empty string. On a line
`P ++ "// __MYPLUGIN:" ++ S ++ R`, where `P` has no newline, `S` is empty or one space, and the
text `R` after it has no marker, no placeholder and (when `S` is empty) no leading space, the
preprocessor removes `P`, the marker and `S`, and nothing else: the lines before (`pre`) and
the text `R`, which may run over the following lines, are left as they are. With an empty
`pre` the preprocessed line is exactly `R`. -/
theorem preprocess_marker_pattern_removal (pre P S R : GoString)
    (hpre : lineStart pre) (hpre1 : no_placeholder pre) (hpre2 : ¬ marker <:+: pre)
    (hP : '\n' ∉ P) (hS : S = [] ∨ S = [' '])
    (hR1 : no_placeholder R) (hR2 : ¬ marker <:+: R) (hhead : S = [] → R.head? ≠ some ' ')
    (hcont : ¬ continuation <:+: pre ++ R) :
    (∀ s r, matchVars s = some r →
      ∃ Q t, (∀ c ∈ Q, c ≠ '\n') ∧ s = Q ++ marker ++ t ∧ r = optSpace t ∧
        ReplaceAllLiteralString s [] = ReplaceAllLiteralString r []) ∧
    preprocess (pre ++ (P ++ (marker ++ (S ++ R)))) = pre ++ R := by
  refine ⟨?_, preprocess_marker_line pre P S R hpre hP hS hpre1 hpre2 hR1 hR2 hhead hcont⟩
  intro s r h
  obtain ⟨Q, t, hQ, hs, hr⟩ := matchVars_sound s r h
  exact ⟨Q, t, hQ, hs, hr, by rw [ReplaceAll_match [] h]; rfl⟩

/-- The witness of C8: a marker line between two other lines, with two spaces after the
colon, of which one is consumed. -/
theorem preprocess_marker_pattern_removal_witness :
    preprocess ("package main\n".toList ++ ("\t// x ".toList ++ (marker ++ ([' '] ++
      " import \"fmt\"\nfunc main()".toList))))
      = "package main\n".toList ++ " import \"fmt\"\nfunc main()".toList :=
  (preprocess_marker_pattern_removal "package main\n".toList "\t// x ".toList [' ']
    " import \"fmt\"\nfunc main()".toList (by decide) (by decide) (by decide) (by decide)
    (by decide) (by decide) (by decide) (by decide) (by decide)).2

/-- C9: for texts `A` and `B` without backslash, placeholder token or marker, the
preprocessor turns `A`, a backslash, a newline and `B` into `A ++ B`. -/
theorem preprocess_line_continuation (A B : GoString) (hA : '\\' ∉ A) (hB : '\\' ∉ B)
    (hA1 : no_placeholder A) (hB1 : no_placeholder B)
    (hA2 : ¬ marker <:+: A) (hB2 : ¬ marker <:+: B) :
    preprocess (A ++ continuation ++ B) = A ++ B := by
  have hjoin : ∀ t : GoString, t ≠ [] → '\\' ∉ t → '\n' ∉ t → ¬ t <:+: A → ¬ t <:+: B →
      ¬ t <:+: A ++ '\\' :: ('\n' :: B) := by
    intro t ht h1 h2 ha hb
    apply not_infix_append_cons h1 ha
    have : ¬ t <:+: [] ++ '\n' :: B :=
      not_infix_append_cons h2 (fun h => ht (List.infix_nil.1 h)) hb
    simpa using this
  have htext : A ++ continuation ++ B = A ++ '\\' :: ('\n' :: B) := by
    simp [continuation]
  have htok : ∀ t ∈ placeholder_tokens, ¬ t <:+: A ++ '\\' :: ('\n' :: B) := by
    intro t ht
    obtain ⟨f1, _, f3, _, _, _, f7⟩ := placeholder_facts t ht
    exact hjoin t f1 f7 f3 (hA1 t ht) (hB1 t ht)
  have hmark : ¬ marker <:+: A ++ '\\' :: ('\n' :: B) :=
    hjoin marker (by decide) (by decide) (by decide) hA2 hB2
  have hskip : strings.Replace (A ++ (continuation ++ B)) continuation [] =
      A ++ strings.Replace (continuation ++ B) continuation [] := by
    apply strings.Replace_skip _ _ (by decide)
    intro k hk hp
    have hd : A.drop k = A[k] :: A.drop (k + 1) := List.drop_eq_getElem_cons hk
    rw [hd, continuation, List.cons_append, List.cons_prefix_cons] at hp
    exact hA (hp.1 ▸ List.getElem_mem hk)
  have hB3 : ¬ continuation <:+: B := fun h => hB (h.subset (by simp [continuation]))
  unfold preprocess
  simp only []
  rw [htext,
    strings.Replace_of_absent _ _ (by decide) _ (htok _ tok_plugin_mem),
    strings.Replace_of_absent _ _ (by decide) _ (htok _ tok_name_mem),
    strings.Replace_of_absent _ _ (by decide) _ (htok _ tok_underscored_mem),
    ReplaceAll_of_absent [] hmark]
  have htext' : A ++ '\\' :: ('\n' :: B) = A ++ (continuation ++ B) := by
    simp [continuation]
  rw [htext', hskip, strings.Replace_append _ _ _ (by decide),
    strings.Replace_of_absent _ _ (by decide) _ hB3]
  rfl

/-- The witness of C9: the quoted text `"foo\`, newline, `bar"` becomes `"foobar"`. -/
theorem preprocess_line_continuation_witness :
    "\"foo".toList ++ continuation ++ "bar\"".toList = "\"foo\\\nbar\"".toList ∧
    preprocess ("\"foo".toList ++ continuation ++ "bar\"".toList) = "\"foobar\"".toList :=
  ⟨by decide, preprocess_line_continuation "\"foo".toList "bar\"".toList (by decide) (by decide)
    (by decide) (by decide) (by decide) (by decide)⟩

/-- C10 (counterexample): the raw text backslash, backslash, newline, newline is preprocessed
into backslash, newline: a continuation marker survives. -/
theorem preprocess_continuation_survives :
    preprocess ['\\', '\\', '\n', '\n'] = ['\\', '\n'] ∧
    continuation <:+: preprocess ['\\', '\\', '\n', '\n'] := by
  decide

/-- C10 (amended): for every raw template text in which no backslash comes immediately before
a backslash-newline sequence, the preprocessed body contains no backslash immediately followed
by a newline. -/
theorem preprocess_no_continuation (raw : GoString) (h : ¬ escaped_continuation <:+: raw) :
    ¬ continuation <:+: preprocess raw := by
  have hstep : ∀ (old new s : GoString), old ≠ [] → new ≠ [] → new.head? = some '\x7b' →
      '\\' ∉ new → ¬ escaped_continuation <:+: s →
      ¬ escaped_continuation <:+: strings.Replace s old new := by
    intro old new s hold hnew hhead hback hs hi
    apply hs
    apply strings.infix_of_infix_Replace old new _ hold hnew _ _ s.length s (Nat.le_refl _) hi
    · intro e he
      rw [hhead] at he
      rw [← Option.some.inj he]
      decide
    · intro e he
      have : e = '\\' := by
        simpa [escaped_continuation] using he.symm
      rw [this]
      exact hback
  have h1 := hstep tok_plugin inv_plugin raw (by decide) (by decide) (by decide) (by decide) h
  have h2 := hstep tok_name inv_name _ (by decide) (by decide) (by decide) (by decide) h1
  have h3 := hstep tok_underscored inv_underscored _ (by decide) (by decide) (by decide)
    (by decide) h2
  have h4 : ¬ escaped_continuation <:+: ReplaceAllLiteralString
      (strings.Replace (strings.Replace (strings.Replace raw tok_plugin inv_plugin)
        tok_name inv_name) tok_underscored inv_underscored) [] :=
    fun hi => h3 (infix_of_infix_ReplaceAll _ (by decide) _ _ (Nat.le_refl _) hi)
  unfold preprocess
  simp only []
  exact strings.not_continuation_infix_Replace _ _ (Nat.le_refl _) h4

/-- The witness of C10 (amended): a text with a continuation and a placeholder. -/
theorem preprocess_no_continuation_witness :
    ¬ escaped_continuation <:+: "func \\\n__MYPLUGIN__()".toList ∧
    ¬ continuation <:+: preprocess "func \\\n__MYPLUGIN__()".toList :=
  ⟨by decide, preprocess_no_continuation "func \\\n__MYPLUGIN__()".toList (by decide)⟩

/-! ## Registration of a source -/

/-- The key and the template that `Model.Source` stores for a template file that reads as
`tmpl_src`. -/
theorem Model.Source_ok (m : Model) (w : World) (file : GoString) (rights : FileMode)
    (comment tmpl_file : GoString) (reset : Bool) (tmpl_src : GoString)
    (hread : os.ReadFile w.fs (path.Join m.model_path tmpl_file) = some tmpl_src) :
    m.Source w file rights comment tmpl_file reset =
      (w, Status.returned,
        Model.mk
          (m.sources.insert
            (if comment = [] then file else if reset then "generated-".toList ++ file else file)
            ⟨reset,
              if comment = [] then preprocess tmpl_src
              else if reset then
                template_comment prefix_generated_template comment ++ preprocess tmpl_src
              else template_comment prefix_created_template comment ++ preprocess tmpl_src,
              rights⟩)
          m.model_path) := by
  have hstat : os.Stat w.fs (path.Join m.model_path tmpl_file) = true := by
    unfold os.ReadFile at hread
    unfold os.Stat
    cases hn : w.fs.node (path.Join m.model_path tmpl_file) with
    | none => rw [hn] at hread; cases hread
    | some n => rfl
  unfold Model.Source
  simp only [hstat, hread]
  by_cases hc : comment = []
  · simp [hc]
  · by_cases hr : reset = true
    · simp [hc, hr]
    · simp [hc, hr]

namespace strings

/-- The scan copies a text that lacks the first character of `old`. -/
theorem Replace_skip_of_head (old new a x : GoString) (h : Char) (hold : old ≠ [])
    (hh : old.head? = some h) (ha : h ∉ a) :
    Replace (a ++ x) old new = a ++ Replace x old new := by
  apply Replace_skip old new hold x a
  intro k hk hp
  cases old with
  | nil => exact hold rfl
  | cons e old' =>
    rw [List.drop_eq_getElem_cons hk, List.cons_append, List.cons_prefix_cons] at hp
    have he : e = h := by simpa using hh
    exact ha (he ▸ hp.1 ▸ List.getElem_mem hk)

end strings

/-- The banner of a regenerated file, with `comment` as its comment marker. -/
theorem template_comment_generated (comment : GoString) :
    template_comment prefix_generated_template comment =
      comment ++ (" This file is autogenerated by \"go generate\". Do not modify it.\n".toList ++
      (comment ++ (" It has been generated from your '\x7b\x7b.Yaml.Name\x7d\x7d.yaml' file.\n".toList ++
      (comment ++ " To update those structure, update the '\x7b\x7b.Yaml.Name\x7d\x7d.yaml' and run 'go generate'\n".toList)))) := by
  have hb : prefix_generated_template =
      ['/', '/'] ++ (" This file is autogenerated by \"go generate\". Do not modify it.\n".toList ++
      (['/', '/'] ++ (" It has been generated from your '\x7b\x7b.Yaml.Name\x7d\x7d.yaml' file.\n".toList ++
      (['/', '/'] ++ (" To update those structure, update the '\x7b\x7b.Yaml.Name\x7d\x7d.yaml' and run 'go generate'\n".toList ++ []))))) := by
    decide
  have hold : (['/', '/'] : GoString) ≠ [] := by decide
  unfold template_comment
  rw [hb, strings.Replace_append _ _ _ hold,
    strings.Replace_skip_of_head _ _ _ _ '/' hold rfl (by decide),
    strings.Replace_append _ _ _ hold,
    strings.Replace_skip_of_head _ _ _ _ '/' hold rfl (by decide),
    strings.Replace_append _ _ _ hold,
    strings.Replace_skip_of_head _ _ _ _ '/' hold rfl (by decide),
    strings.Replace_nil _ _ hold, List.append_nil]

/-- The banner of a file created once, with `comment` as its comment marker. -/
theorem template_comment_created (comment : GoString) :
    template_comment prefix_created_template comment =
      comment ++ (" This file has been created by \"go generate\" as initial code. go generate will never update it, EXCEPT if you remove it.\n\n".toList ++
      (comment ++ " So, update it for your need.\n".toList)) := by
  have hb : prefix_created_template =
      ['/', '/'] ++ (" This file has been created by \"go generate\" as initial code. go generate will never update it, EXCEPT if you remove it.\n\n".toList ++
      (['/', '/'] ++ (" So, update it for your need.\n".toList ++ []))) := by
    decide
  have hold : (['/', '/'] : GoString) ≠ [] := by decide
  unfold template_comment
  rw [hb, strings.Replace_append _ _ _ hold,
    strings.Replace_skip_of_head _ _ _ _ '/' hold rfl (by decide),
    strings.Replace_append _ _ _ hold,
    strings.Replace_skip_of_head _ _ _ _ '/' hold rfl (by decide),
    strings.Replace_nil _ _ hold, List.append_nil]

/-- A banner whose comment marker has no slash has no slash at all. -/
theorem banner_no_slash (comment : GoString) (h : '/' ∉ comment) :
    '/' ∉ template_comment prefix_generated_template comment ∧
    '/' ∉ template_comment prefix_created_template comment := by
  rw [template_comment_generated, template_comment_created]
  constructor
  · simp only [List.mem_append, not_or]
    exact ⟨h, by decide, h, by decide, h, by decide⟩
  · simp only [List.mem_append, not_or]
    exact ⟨h, by decide, h, by decide⟩

/-- C11: for a template file that reads as `tmpl_src`, with `B` the preprocessed body, the
stored source has the template `B` when the comment prefix is empty, the generated banner
followed by `B` when it is not and `reset` is true, and the created banner followed by `B`
when it is not and `reset` is false; the banner is the banner text with every `//` replaced by
the comment prefix. With the prefix `//` the banner text is unchanged, and with a prefix
without `/` the banner contains no `//`. -/
theorem Model_Source_banner_decision (m : Model) (w : World) (file : GoString)
    (rights : FileMode) (comment tmpl_file : GoString) (reset : Bool) (tmpl_src : GoString)
    (hread : os.ReadFile w.fs (path.Join m.model_path tmpl_file) = some tmpl_src) :
    (m.Source w file rights comment tmpl_file reset).2.2.sources.lookup
        (if comment = [] then file else if reset then "generated-".toList ++ file else file)
      = some ⟨reset,
          if comment = [] then preprocess tmpl_src
          else if reset then
            strings.Replace prefix_generated_template ['/', '/'] comment ++ preprocess tmpl_src
          else strings.Replace prefix_created_template ['/', '/'] comment ++ preprocess tmpl_src,
          rights⟩ ∧
    strings.Replace prefix_generated_template ['/', '/'] ['/', '/'] = prefix_generated_template ∧
    strings.Replace prefix_created_template ['/', '/'] ['/', '/'] = prefix_created_template ∧
    ('/' ∉ comment →
      ¬ ['/', '/'] <:+: strings.Replace prefix_generated_template ['/', '/'] comment ∧
      ¬ ['/', '/'] <:+: strings.Replace prefix_created_template ['/', '/'] comment) := by
  refine ⟨?_, by decide, by decide, ?_⟩
  · rw [Model.Source_ok m w file rights comment tmpl_file reset tmpl_src hread]
    simp only [AList.lookup_insert]
    rfl
  · intro h
    have hb := banner_no_slash comment h
    exact ⟨fun hi => hb.1 (hi.subset (List.mem_cons_self _ _)),
      fun hi => hb.2 (hi.subset (List.mem_cons_self _ _))⟩

/-- The witness of C11: the template file of the model `templates/rest`, registered with the
comment prefix `#` as a regenerated file. -/
theorem Model_Source_banner_decision_witness :
    (model_rest.Source ⟨fs_templates, []⟩ "main.go".toList 420 "#".toList
        "main.go.tmpl".toList true).2.2.sources.lookup "generated-main.go".toList
      = some ⟨true,
          ("# This file is autogenerated by \"go generate\". Do not modify it.\n" ++
           "# It has been generated from your '\x7b\x7b.Yaml.Name\x7d\x7d.yaml' file.\n" ++
           "# To update those structure, update the '\x7b\x7b.Yaml.Name\x7d\x7d.yaml' and run 'go generate'\n" ++
           "package \x7b\x7b go_vars .Yaml.Name \x7d\x7d\n").toList, 420⟩ :=
  (Model_Source_banner_decision model_rest ⟨fs_templates, []⟩ "main.go".toList 420 "#".toList
    "main.go.tmpl".toList true "package __MYPLUGIN__\n".toList (by decide)).1.trans (by decide)

/-- C12 (counterexample): a registration with `reset == true` and the empty comment prefix
stores the source under `Dockerfile`, and nothing under `generated-Dockerfile`. -/
theorem Model_Source_no_generated_name :
    (model_rest.Source ⟨fs_templates, []⟩ "Dockerfile".toList 420 [] "main.go.tmpl".toList
        true).2.1 = Status.returned ∧
    (model_rest.Source ⟨fs_templates, []⟩ "Dockerfile".toList 420 [] "main.go.tmpl".toList
        true).2.2.sources.lookup "Dockerfile".toList
      = some ⟨true, "package \x7b\x7b go_vars .Yaml.Name \x7d\x7d\n".toList, 420⟩ ∧
    (model_rest.Source ⟨fs_templates, []⟩ "Dockerfile".toList 420 [] "main.go.tmpl".toList
        true).2.2.sources.lookup "generated-Dockerfile".toList = none := by
  decide

/-- C12 (amended): a successful registration with `reset == true` and a non-empty comment
prefix stores the source under `"generated-" ++ file`; with `reset == false`, or with the
empty comment prefix, it stores it under `file` unchanged; the sources under every other path
stay as they were. -/
theorem Model_Source_generated_name (m : Model) (w : World) (file : GoString)
    (rights : FileMode) (comment tmpl_file : GoString) (reset : Bool) (tmpl_src : GoString)
    (hread : os.ReadFile w.fs (path.Join m.model_path tmpl_file) = some tmpl_src) :
    (m.Source w file rights comment tmpl_file reset).2.1 = Status.returned ∧
    (reset = true → comment ≠ [] →
      (∃ s, (m.Source w file rights comment tmpl_file reset).2.2.sources.lookup
          ("generated-".toList ++ file) = some s ∧ s.reset = true ∧ s.rights = rights) ∧
      ∀ k, k ≠ "generated-".toList ++ file →
        (m.Source w file rights comment tmpl_file reset).2.2.sources.lookup k
          = m.sources.lookup k) ∧
    (reset = false ∨ comment = [] →
      (∃ s, (m.Source w file rights comment tmpl_file reset).2.2.sources.lookup file = some s ∧
        s.reset = reset ∧ s.rights = rights) ∧
      ∀ k, k ≠ file →
        (m.Source w file rights comment tmpl_file reset).2.2.sources.lookup k
          = m.sources.lookup k) := by
  rw [Model.Source_ok m w file rights comment tmpl_file reset tmpl_src hread]
  refine ⟨rfl, ?_, ?_⟩
  · intro hr hc
    simp only [hr, hc, if_true, if_false]
    exact ⟨⟨_, AList.lookup_insert _, rfl, rfl⟩, fun k hk => AList.lookup_insert_ne hk⟩
  · intro h
    have hkey : (if comment = [] then file
        else if reset = true then "generated-".toList ++ file else file) = file := by
      rcases h with h | h
      · simp [h]
      · simp [h]
    simp only [hkey]
    exact ⟨⟨_, AList.lookup_insert _, rfl, rfl⟩, fun k hk => AList.lookup_insert_ne hk⟩

/-- The witness of C12 (amended): the template file of the model `templates/rest`, registered
with the comment prefix `//` as a regenerated file. -/
theorem Model_Source_generated_name_witness :
    os.ReadFile fs_templates (path.Join model_rest.model_path "main.go.tmpl".toList)
      = some "package __MYPLUGIN__\n".toList ∧
    ∃ s, (model_rest.Source ⟨fs_templates, []⟩ "main.go".toList 420 "//".toList
        "main.go.tmpl".toList true).2.2.sources.lookup ("generated-".toList ++ "main.go".toList)
      = some s ∧ s.reset = true ∧ s.rights = 420 :=
  ⟨by decide,
    ((Model_Source_generated_name model_rest ⟨fs_templates, []⟩ "main.go".toList 420
      "//".toList "main.go.tmpl".toList true "package __MYPLUGIN__\n".toList
      (by decide)).2.1 rfl (by decide)).1⟩

/-- C19: when the template file `join(model_path, tmpl_file)` does not exist, `Model.Source`
prints its diagnostic and exits with code 1, and the model is as it was: no source is
added, under `file` or under any other path. -/
theorem Model_Source_missing_template (m : Model) (w : World) (file : GoString)
    (rights : FileMode) (comment tmpl_file : GoString) (reset : Bool)
    (hmissing : os.Stat w.fs (path.Join m.model_path tmpl_file) = false) :
    m.Source w file rights comment tmpl_file reset =
      (w.print (Msg.template_missing (path.Join m.model_path tmpl_file)), Status.exited 1, m) ∧
    (m.Source w file rights comment tmpl_file reset).2.1 ≠ Status.returned ∧
    ∀ k, (m.Source w file rights comment tmpl_file reset).2.2.sources.lookup k
      = m.sources.lookup k := by
  have h : m.Source w file rights comment tmpl_file reset =
      (w.print (Msg.template_missing (path.Join m.model_path tmpl_file)),
        Status.exited 1, m) := by
    unfold Model.Source
    simp only [hmissing, if_true]
  rw [h]
  exact ⟨rfl, fun hret => Status.noConfusion hret, fun _ => rfl⟩

/-- The witness of C19: a registration from the empty filesystem. -/
theorem Model_Source_missing_template_witness :
    os.Stat fs_empty (path.Join model_rest.model_path "main.go.tmpl".toList) = false ∧
    model_rest.Source ⟨fs_empty, []⟩ "main.go".toList 420 "//".toList "main.go.tmpl".toList
      true =
      ((⟨fs_empty, []⟩ : World).print
        (Msg.template_missing (path.Join model_rest.model_path "main.go.tmpl".toList)),
        Status.exited 1, model_rest) :=
  ⟨by decide,
    (Model_Source_missing_template model_rest ⟨fs_empty, []⟩ "main.go".toList 420 "//".toList
      "main.go.tmpl".toList true (by decide)).1⟩

/-! ## The helper functions -/

namespace strings

/-- Replacing a one-character text is a character-by-character substitution. -/
theorem Replace_single (a : Char) (new : GoString) : ∀ s : GoString,
    Replace s [a] new = s.flatMap (fun c => if c = a then new else [c]) := by
  have hold : ([a] : GoString) ≠ [] := by simp
  intro s
  induction s with
  | nil => rw [Replace_nil _ _ hold]; rfl
  | cons c cs ih =>
    by_cases hc : c = a
    · subst hc
      have : c :: cs = [c] ++ cs := rfl
      rw [this, Replace_append _ _ _ hold, ih]
      simp
    · have hp : ¬ [a] <+: c :: cs := by
        intro h
        rw [List.cons_prefix_cons] at h
        exact hc h.1.symm
      rw [Replace_cons _ _ c cs hold hp, ih]
      simp [hc]

end strings

/-- C13 (counterexample): `escape` writes a double quote as backslash, quote, not as two
quotes, and a newline as `\n" +`, line break, three spaces, quote, not as `\n" + "`. -/
theorem escape_not_doubling :
    escape ['"'] = ['\\', '"'] ∧ escape ['"'] ≠ ['"', '"'] ∧
    escape ['\n'] = ['\\', 'n', '"', ' ', '+', '\n', ' ', ' ', ' ', '"'] ∧
    escape ['\n'] ≠ ['\\', 'n', '"', ' ', '+', ' ', '"'] := by
  decide

/-- C13 (amended): for every string `s`, `escape s` is `s` with every double quote replaced by
a backslash and a double quote, and every newline replaced by backslash, `n`, double quote,
space, `+`, newline, three spaces, double quote; all other characters are unchanged. -/
theorem escape_characterwise (s : GoString) : escape s = s.flatMap escape_char := by
  unfold escape
  rw [strings.Replace_single, strings.Replace_single, List.flatMap_assoc]
  congr 1
  funext c
  unfold escape_char
  by_cases h1 : c = '"'
  · subst h1
    decide
  · by_cases h2 : c = '\n'
    · subst h2
      decide
    · simp [h1, h2]

/-- C15: `object_has_secure` is true exactly when some flag of the object's flag mapping has
its secure option set; it is false for an object without flags. -/
theorem object_has_secure_iff (o : YamlObject) :
    (object_has_secure o = true ↔
      ∃ f fl, o.Flags.lookup f = some fl ∧ fl.Options.Secure = true) ∧
    (o.Flags.entries = [] → object_has_secure o = false) := by
  unfold object_has_secure
  constructor
  · rw [List.any_eq_true]
    constructor
    · rintro ⟨⟨f, fl⟩, hmem, hsec⟩
      exact ⟨f, fl, AList.mem_lookup_iff.2 hmem, hsec⟩
    · rintro ⟨f, fl, hl, hsec⟩
      exact ⟨⟨f, fl⟩, AList.mem_lookup_iff.1 hl, hsec⟩
  · intro h
    rw [h]
    rfl

/-- C18: after `Models.Create(n, p)` the registry maps `n` to a model with no source and the
model path `join(p, n)`, whatever it mapped `n` to before, and maps every other name as
before. -/
theorem Models_Create_overwrite (reg : Models) (n p : GoString) :
    (reg.Create n p).1.model.lookup n = some ⟨∅, path.Join p n⟩ ∧
    (reg.Create n p).2 = ⟨∅, path.Join p n⟩ ∧
    ∀ m, m ≠ n → (reg.Create n p).1.model.lookup m = reg.model.lookup m := by
  unfold Models.Create
  refine ⟨AList.lookup_insert _, rfl, ?_⟩
  intro m hm
  exact AList.lookup_insert_ne hm

/-! ## The helper `go_vars` -/

theorem letter_ne_hyphen {c : Char} (h : is_ascii_letter c = true) : c ≠ '-' := by
  intro e
  subst e
  exact absurd h (by decide)

theorem letter_not_separator (U : UnicodeTables) {c : Char} (h : is_ascii_letter c = true) :
    strings.isSeparator U c = false := by
  have ha : 'a'.toNat = 97 := rfl
  have hz : 'z'.toNat = 122 := rfl
  have hA : 'A'.toNat = 65 := rfl
  have hZ : 'Z'.toNat = 90 := rfl
  have h0 : '0'.toNat = 48 := rfl
  have h9 : '9'.toNat = 57 := rfl
  unfold is_ascii_letter at h
  rw [ha, hz, hA, hZ] at h
  simp only [Bool.or_eq_true, Bool.and_eq_true, decide_eq_true_eq] at h
  unfold strings.isSeparator
  rw [ha, hz, hA, hZ, h0, h9]
  have h127 : c.toNat ≤ 127 := by omega
  rw [if_pos h127]
  by_cases h1 : 48 ≤ c.toNat ∧ c.toNat ≤ 57
  · rw [if_pos h1]
  · rw [if_neg h1]
    by_cases h2 : 97 ≤ c.toNat ∧ c.toNat ≤ 122
    · rw [if_pos h2]
    · rw [if_neg h2]
      have h3 : 65 ≤ c.toNat ∧ c.toNat ≤ 90 := by omega
      rw [if_pos h3]

theorem letter_title (U : UnicodeTables) {c : Char} (h : is_ascii_letter c = true)
    (cs : GoString) : strings.ToTitle U c :: cs = upper_first (c :: cs) := by
  have ha : 'a'.toNat = 97 := rfl
  have hz : 'z'.toNat = 122 := rfl
  have hA : 'A'.toNat = 65 := rfl
  have hZ : 'Z'.toNat = 90 := rfl
  unfold is_ascii_letter at h
  rw [ha, hz, hA, hZ] at h
  simp only [Bool.or_eq_true, Bool.and_eq_true, decide_eq_true_eq] at h
  have h127 : c.toNat ≤ 127 := by omega
  unfold strings.ToTitle upper_first
  rw [if_pos h127]

theorem upper_ne_hyphen {c : Char} (h : is_ascii_letter c = true) (cs : GoString) :
    ∃ d, upper_first (c :: cs) = d :: cs ∧ d ≠ '-' := by
  have hall : ∀ n, n < 123 → 97 ≤ n → Char.ofNat (n - 32) ≠ '-' := by decide
  have e : upper_first (c :: cs) =
      (if 97 ≤ c.toNat ∧ c.toNat ≤ 122 then Char.ofNat (c.toNat - 32) else c) :: cs := rfl
  rw [e]
  by_cases h2 : 97 ≤ c.toNat ∧ c.toNat ≤ 122
  · rw [if_pos h2]
    exact ⟨_, rfl, hall c.toNat (by omega) h2.1⟩
  · rw [if_neg h2]
    exact ⟨_, rfl, letter_ne_hyphen h⟩

theorem hyphen_title (U : UnicodeTables) :
    strings.isSeparator U '-' = true ∧ strings.ToTitle U '-' = '-' := ⟨rfl, rfl⟩

/-- The title-casing of `go_vars` from any state of the scan: after a separator the first
word is upper-cased as the others are, otherwise it continues the current word. -/
theorem go_vars_from (U : UnicodeTables) : ∀ (s : GoString) (prev : Char),
    (∀ c ∈ s, is_ascii_letter c = true ∨ c = '-') →
    strings.Replace (strings.titleFrom U prev s) ['-'] [] =
      if strings.isSeparator U prev = true then ((s.splitOn '-').map upper_first).join
      else (s.splitOn '-').headD [] ++ (((s.splitOn '-').tail).map upper_first).join := by
  have hold : (['-'] : GoString) ≠ [] := by decide
  intro s
  induction s with
  | nil =>
    intro prev _
    have : ([] : GoString).splitOn '-' = [[]] := List.splitOn_nil _
    rw [this]
    simp only [strings.titleFrom, strings.Replace_nil _ _ hold]
    split <;> rfl
  | cons c s' ih =>
    intro prev hs
    have hs' : ∀ d ∈ s', is_ascii_letter d = true ∨ d = '-' :=
      fun d hd => hs d (List.mem_cons_of_mem _ hd)
    have hsplit : (c :: s').splitOn '-' =
        if (c == '-') = true then [] :: s'.splitOn '-'
        else (s'.splitOn '-').modifyHead (List.cons c) := by
      unfold List.splitOn
      rw [List.splitOnP_cons]
    rcases hs c (List.mem_cons_self _ _) with hc | hc
    · -- a letter
      have hne : c ≠ '-' := letter_ne_hyphen hc
      have hbeq : (c == '-') = false := by simpa using hne
      rw [hsplit, hbeq]
      simp only [Bool.false_eq_true, if_false]
      obtain ⟨w0, ws, hw⟩ : ∃ w0 ws, s'.splitOn '-' = w0 :: ws := by
        cases hx : s'.splitOn '-' with
        | nil => exact absurd hx (List.splitOnP_ne_nil _ _)
        | cons w0 ws => exact ⟨w0, ws, rfl⟩
      have ih' := ih c hs'
      rw [letter_not_separator U hc, hw] at ih'
      simp only [Bool.false_eq_true, if_false, List.headD_cons, List.tail_cons] at ih'
      rw [hw, List.modifyHead_cons]
      simp only [strings.titleFrom]
      by_cases hp : strings.isSeparator U prev = true
      · rw [if_pos hp, if_pos hp]
        obtain ⟨d, hd, hdne⟩ := upper_ne_hyphen hc (strings.titleFrom U c s')
        rw [letter_title U hc, hd]
        have hnp : ¬ ['-'] <+: d :: strings.titleFrom U c s' := by
          intro h
          rw [List.cons_prefix_cons] at h
          exact hdne h.1.symm
        rw [strings.Replace_cons _ _ d _ hold hnp, ih']
        obtain ⟨d', hd', _⟩ := upper_ne_hyphen hc w0
        have hdd : d' = d := by
          have e1 := hd
          have e2 := hd'
          unfold upper_first at e1 e2
          exact ((List.cons.inj e2).1.symm.trans (List.cons.inj e1).1)
        simp only [List.map_cons, List.join_cons, hd', hdd, List.cons_append]
      · rw [if_neg hp, if_neg hp]
        have hnp : ¬ ['-'] <+: c :: strings.titleFrom U c s' := by
          intro h
          rw [List.cons_prefix_cons] at h
          exact hne h.1.symm
        rw [strings.Replace_cons _ _ c _ hold hnp, ih']
        simp only [List.headD_cons, List.tail_cons, List.cons_append]
    · -- a hyphen
      subst hc
      have hbeq : ('-' == '-') = true := rfl
      rw [hsplit, hbeq]
      simp only [if_true]
      have ih' := ih '-' hs'
      rw [(hyphen_title U).1] at ih'
      simp only [if_true] at ih'
      have hemit : strings.titleFrom U prev ('-' :: s') = ['-'] ++ strings.titleFrom U '-' s' := by
        simp only [strings.titleFrom, (hyphen_title U).2, ite_self]
        rfl
      rw [hemit, strings.Replace_append _ _ _ hold, ih']
      split
      · simp [upper_first]
      · simp

/-- C14: for every string `s` made of ASCII letters and hyphens, `go_vars s` is the
concatenation of the hyphen-delimited words of `s`, the first letter of each upper-cased and
the others unchanged; and for every string `s`, `go_vars s` contains no hyphen. -/
theorem go_vars_camel_case (U : UnicodeTables) (s : GoString)
    (hs : ∀ c ∈ s, is_ascii_letter c = true ∨ c = '-') :
    go_vars U s = camel_case s ∧ ∀ t : GoString, '-' ∉ go_vars U t := by
  constructor
  · unfold go_vars strings.Title camel_case
    rw [go_vars_from U s ' ' hs]
    have : strings.isSeparator U ' ' = true := rfl
    rw [if_pos this]
  · intro t hmem
    unfold go_vars at hmem
    rw [strings.Replace_single, List.mem_flatMap] at hmem
    obtain ⟨c, _, hc⟩ := hmem
    by_cases h : c = '-'
    · simp [h] at hc
    · simp only [h, if_false, List.mem_singleton] at hc
      exact h hc.symm

/-- The witness of C14: the name `my-app`. -/
theorem go_vars_camel_case_witness :
    (∀ c ∈ "my-app".toList, is_ascii_letter c = true ∨ c = '-') ∧
    go_vars tables_ascii "my-app".toList = "MyApp".toList :=
  ⟨by decide,
    (go_vars_camel_case tables_ascii "my-app".toList (by decide)).1.trans (by decide)⟩

/-! ## The batch of a model -/

/-- What `apply_source` prints is appended to the output, and is never the diagnostic of an
invalid model. -/
theorem apply_source_out (U : UnicodeTables) (E : Engine) (s : Source) (yaml : YamlData)
    (file : GoString) (w : World) :
    ∃ extra, (s.apply_source U E yaml file w).1.out = w.out ++ extra ∧
      ∀ x ∈ extra, ∀ n, x ≠ Msg.invalid_model n := by
  unfold Source.apply_source
  by_cases hskip : os.Stat w.fs file = true ∧ s.reset = false
  · rw [if_pos hskip]
    exact ⟨[], by simp, by simp⟩
  · rw [if_neg hskip]
    cases hp : E.Parse file (funcs U) s.template with
    | error err =>
      simp only []
      exact ⟨[_], rfl, by simp⟩
    | ok tmpl =>
      simp only []
      generalize (if path.Dir file ≠ ['.'] then os.MkdirAll w.fs (path.Dir file) 493
        else (w.fs, true)) = made
      by_cases hmade : made.2 = false
      · rw [if_pos hmade]
        exact ⟨[_], rfl, by simp⟩
      · rw [if_neg hmade]
        by_cases hopen : (os.Create made.1 file).2 = false
        · rw [if_pos hopen]
          exact ⟨[_], rfl, by simp⟩
        · rw [if_neg hopen]
          cases hr : (tmpl yaml).2 with
          | some err =>
            simp only []
            exact ⟨[_], rfl, by simp⟩
          | none =>
            simp only []
            by_cases hmode : (os.Chmod (os.Write (os.Create made.1 file).1 file (tmpl yaml).1)
                file s.rights).2 = false
            · rw [if_pos hmode]
              exact ⟨[_], rfl, by simp⟩
            · rw [if_neg hmode]
              by_cases hreset : s.reset = true
              · rw [if_pos hreset]
                exact ⟨[_], rfl, by simp⟩
              · rw [if_neg hreset]
                exact ⟨[_], rfl, by simp⟩

/-- The same for the loop over the sources of a model. -/
theorem apply_sources_out (U : UnicodeTables) (E : Engine) (yaml : YamlData) :
    ∀ (l : List (Sigma fun _ : GoString => Source)) (w : World),
      ∃ extra, (apply_sources U E yaml l w).1.out = w.out ++ extra ∧
        ∀ x ∈ extra, ∀ n, x ≠ Msg.invalid_model n := by
  intro l
  induction l with
  | nil => intro w; exact ⟨[], by simp [apply_sources], by simp⟩
  | cons e l ih =>
    intro w
    obtain ⟨x1, h1, h1'⟩ := apply_source_out U E e.2 yaml e.1 w
    unfold apply_sources
    cases hres : e.2.apply_source U E yaml e.1 w with
    | mk w1 st =>
      rw [hres] at h1
      cases st with
      | returned =>
        simp only []
        obtain ⟨x2, h2, h2'⟩ := ih w1
        refine ⟨x1 ++ x2, ?_, ?_⟩
        · rw [h2, h1, List.append_assoc]
        · intro x hx
          rcases List.mem_append.1 hx with h | h
          · exact h1' x h
          · exact h2' x h
      | exited code =>
        exact ⟨x1, h1, h1'⟩

/-- C16: `Create_model` ends with the diagnostic of an invalid model and exit code 1 exactly
when the name is not a key of the registry; then nothing else is printed, no source is applied
and the filesystem is as it was; and for a registered name nothing that the batch prints, on a
template or filesystem error or otherwise, is that diagnostic. -/
theorem Create_model_unregistered (U : UnicodeTables) (E : Engine) (m : Models)
    (yaml : YamlPlugin) (raw_yaml name : GoString) (w : World) :
    (m.Create_model U E yaml raw_yaml name w
        = (w.print (Msg.invalid_model name), Status.exited 1) ↔ name ∉ m.model) ∧
    (name ∉ m.model →
      (m.Create_model U E yaml raw_yaml name w).1.fs = w.fs ∧
      (m.Create_model U E yaml raw_yaml name w).1.out = w.out ++ [Msg.invalid_model name] ∧
      (m.Create_model U E yaml raw_yaml name w).2 = Status.exited 1) ∧
    (name ∈ m.model →
      ∃ extra, (m.Create_model U E yaml raw_yaml name w).1.out = w.out ++ extra ∧
        ∀ x ∈ extra, ∀ n, x ≠ Msg.invalid_model n) := by
  have hreg : name ∈ m.model →
      ∃ extra, (m.Create_model U E yaml raw_yaml name w).1.out = w.out ++ extra ∧
        ∀ x ∈ extra, ∀ n, x ≠ Msg.invalid_model n := by
    intro hmem
    have hsome := AList.lookup_isSome.2 hmem
    cases hl : m.model.lookup name with
    | none => rw [hl] at hsome; cases hsome
    | some model =>
      unfold Models.Create_model
      simp only [hl]
      exact apply_sources_out U E _ _ w
  have hunreg : name ∉ m.model →
      m.Create_model U E yaml raw_yaml name w
        = (w.print (Msg.invalid_model name), Status.exited 1) := by
    intro hmem
    unfold Models.Create_model
    simp only [AList.lookup_eq_none.2 hmem]
  refine ⟨⟨?_, hunreg⟩, ?_, hreg⟩
  · intro heq hmem
    obtain ⟨extra, hout, hno⟩ := hreg hmem
    rw [heq] at hout
    have h1 : w.out ++ [Msg.invalid_model name] = w.out ++ extra := hout
    have h2 : extra = [Msg.invalid_model name] := (List.append_cancel_left h1).symm
    exact hno (Msg.invalid_model name) (by rw [h2]; exact List.mem_singleton.2 rfl) name rfl
  · intro hmem
    rw [hunreg hmem]
    exact ⟨rfl, rfl, rfl⟩

/-! ## What the preprocessor leaves behind -/

namespace strings

/-- A pass creates no occurrence of a text `m` that lacks the first character of the
replacement and is not comparable with any end of the replacement. -/
theorem infix_of_infix_Replace_ends (old new m : GoString) (hold : old ≠ []) (hnew : new ≠ [])
    (hh : ∀ h, new.head? = some h → h ∉ m)
    (hinc : ∀ k, k < new.length → ¬ m <+: new.drop k ∧ ¬ new.drop k <+: m) :
    ∀ (n : Nat) (s : GoString), s.length ≤ n → m <:+: Replace s old new → m <:+: s := by
  intro n
  induction n with
  | zero =>
    intro s hs h
    have : s = [] := List.length_eq_zero.1 (Nat.le_zero.1 hs)
    subst this
    rw [Replace_nil old new hold] at h
    exact h
  | succ n ih =>
    intro s hs h
    cases s with
    | nil =>
      rw [Replace_nil old new hold] at h
      exact h
    | cons c s' =>
      by_cases hp : old <+: c :: s'
      · obtain ⟨r, hr⟩ := hp
        have hlen : 0 < old.length := List.length_pos.2 hold
        have hlt : r.length ≤ n := by
          have := congrArg List.length hr
          simp only [List.length_append, List.length_cons] at this
          simp only [List.length_cons] at hs
          omega
        rw [← hr, Replace_append old new _ hold] at h
        rcases infix_append_cases h with h1 | ⟨k, hk, hpk⟩
        · rw [← hr]
          exact (ih r hlt h1).trans (List.suffix_append _ _).isInfix
        · have hcmp := List.prefix_or_prefix_of_prefix hpk (List.prefix_append (new.drop k) _)
          exact absurd hcmp (fun h' => h'.elim (hinc k hk).1 (hinc k hk).2)
      · rw [Replace_cons old new c s' hold hp, List.infix_cons_iff] at h
        rcases h with h1 | h1
        · rw [← Replace_cons old new c s' hold hp] at h1
          exact (prefix_of_prefix_Replace old new hold hnew _ _ m (Nat.le_refl _) hh h1).isInfix
        · exact List.infix_cons_iff.2 (Or.inr (ih s' (by simpa using hs) h1))

/-- A pass leaves no occurrence of the text it replaces, when the replacement does not start
with a character of that text and none of its ends is comparable with it. -/
theorem not_infix_Replace_self (old new : GoString) (hold : old ≠ []) (hnew : new ≠ [])
    (hh : ∀ h, new.head? = some h → h ∉ old)
    (hinc : ∀ k, k < new.length → ¬ old <+: new.drop k ∧ ¬ new.drop k <+: old) :
    ∀ (n : Nat) (s : GoString), s.length ≤ n → ¬ old <:+: Replace s old new := by
  intro n
  induction n with
  | zero =>
    intro s hs h
    have : s = [] := List.length_eq_zero.1 (Nat.le_zero.1 hs)
    subst this
    rw [Replace_nil old new hold] at h
    exact hold (List.infix_nil.1 h)
  | succ n ih =>
    intro s hs h
    cases s with
    | nil =>
      rw [Replace_nil old new hold] at h
      exact hold (List.infix_nil.1 h)
    | cons c s' =>
      by_cases hp : old <+: c :: s'
      · obtain ⟨r, hr⟩ := hp
        have hlen : 0 < old.length := List.length_pos.2 hold
        have hlt : r.length ≤ n := by
          have := congrArg List.length hr
          simp only [List.length_append, List.length_cons] at this
          simp only [List.length_cons] at hs
          omega
        rw [← hr, Replace_append old new _ hold] at h
        rcases infix_append_cases h with h1 | ⟨k, hk, hpk⟩
        · exact ih r hlt h1
        · have hcmp := List.prefix_or_prefix_of_prefix hpk (List.prefix_append (new.drop k) _)
          exact hcmp.elim (hinc k hk).1 (hinc k hk).2
      · rw [Replace_cons old new c s' hold hp, List.infix_cons_iff] at h
        rcases h with h1 | h1
        · rw [← Replace_cons old new c s' hold hp] at h1
          exact hp (prefix_of_prefix_Replace old new hold hnew _ _ old (Nat.le_refl _) hh h1)
        · exact ih s' (by simpa using hs) h1

end strings

/-- The pattern matches where the marker starts. -/
theorem matchVars_of_prefix {s : GoString} (h : marker <+: s) : ∃ r, matchVars s = some r := by
  obtain ⟨t, ht⟩ := h
  have hm : marker = '/' :: marker.tail := by decide
  have hs : s = '/' :: (marker.tail ++ t) := by
    rw [← ht, ← List.cons_append, ← hm]
  cases hx : matchVars (marker.tail ++ t) with
  | some r => exact ⟨r, by rw [hs]; exact matchVars_cons (by decide) hx⟩
  | none => exact ⟨_, by rw [← ht]; exact matchVars_marker t hx⟩

/-- The marker pass leaves no marker. -/
theorem not_marker_infix_ReplaceAll : ∀ (n : Nat) (s : GoString), s.length ≤ n →
    ¬ marker <:+: ReplaceAllLiteralString s [] := by
  intro n
  induction n with
  | zero =>
    intro s hs h
    have : s = [] := List.length_eq_zero.1 (Nat.le_zero.1 hs)
    subst this
    exact absurd h (by decide)
  | succ n ih =>
    intro s hs h
    cases hmv : matchVars s with
    | some r =>
      rw [ReplaceAll_match [] hmv, List.nil_append] at h
      have hlt := matchVars_length hmv
      exact ih r (by omega) h
    | none =>
      cases s with
      | nil => exact absurd h (by decide)
      | cons c s' =>
        rw [ReplaceAll_cons [] hmv, List.infix_cons_iff] at h
        rcases h with h1 | h1
        · rw [← ReplaceAll_cons [] hmv] at h1
          have hp := prefix_of_prefix_ReplaceAll marker _ (by decide) hmv h1
          obtain ⟨r, hr⟩ := matchVars_of_prefix hp
          rw [hmv] at hr
          cases hr
        · exact ih s' (by simpa using hs) h1

theorem placeholder_ends :
    ∀ t ∈ placeholder_tokens, ∀ p ∈ placeholder_table,
      t ≠ [] ∧ p.2 ≠ [] ∧ (∀ h, p.2.head? = some h → h ∉ t) ∧
      (∀ k, k < p.2.length → ¬ t <+: p.2.drop k ∧ ¬ p.2.drop k <+: t) ∧
      (∀ c ∈ t.dropLast, c ≠ '\n') := by
  decide

/-- C20: for every raw template text without backslash immediately followed by a newline,
the preprocessed body contains none of the three placeholder tokens and no marker; without
that condition a token can be left: the continuation inside `__MYPLU\`, newline, `GIN__` is
collapsed after the substitution has run. -/
theorem preprocess_no_placeholder_left (raw : GoString) (h : ¬ continuation <:+: raw) :
    (no_placeholder (preprocess raw) ∧ ¬ marker <:+: preprocess raw) ∧
    preprocess "__MYPLU\\\nGIN__".toList = tok_plugin := by
  refine ⟨?_, by decide⟩
  have m1 : (tok_plugin, inv_plugin) ∈ placeholder_table := by decide
  have m2 : (tok_name, inv_name) ∈ placeholder_table := by decide
  have m3 : (tok_underscored, inv_underscored) ∈ placeholder_table := by decide
  -- the continuation is not created by the first four passes
  have hcstep : ∀ (old new s : GoString), old ≠ [] → new ≠ [] → new.head? = some '\x7b' →
      '\\' ∉ new → ¬ continuation <:+: s → ¬ continuation <:+: strings.Replace s old new := by
    intro old new s hold hnew hhead hback hs hi
    apply hs
    apply strings.infix_of_infix_Replace old new _ hold hnew _ _ s.length s (Nat.le_refl _) hi
    · intro e he
      rw [hhead] at he
      rw [← Option.some.inj he]
      decide
    · intro e he
      have : e = '\\' := by simpa [continuation] using he.symm
      rw [this]
      exact hback
  have c1 := hcstep tok_plugin inv_plugin raw (by decide) (by decide) (by decide) (by decide) h
  have c2 := hcstep tok_name inv_name _ (by decide) (by decide) (by decide) (by decide) c1
  have c3 := hcstep tok_underscored inv_underscored _ (by decide) (by decide) (by decide)
    (by decide) c2
  have c4 : ¬ continuation <:+: ReplaceAllLiteralString
      (strings.Replace (strings.Replace (strings.Replace raw tok_plugin inv_plugin)
        tok_name inv_name) tok_underscored inv_underscored) [] :=
    fun hi => c3 (infix_of_infix_ReplaceAll _ (by decide) _ _ (Nat.le_refl _) hi)
  have hpre : preprocess raw = ReplaceAllLiteralString
      (strings.Replace (strings.Replace (strings.Replace raw tok_plugin inv_plugin)
        tok_name inv_name) tok_underscored inv_underscored) [] := by
    unfold preprocess
    simp only []
    exact strings.Replace_of_absent _ _ (by decide) _ c4
  -- a pass removes its token and creates no other
  have hself : ∀ p ∈ placeholder_table, p.1 ∈ placeholder_tokens → ∀ s : GoString,
      ¬ p.1 <:+: strings.Replace s p.1 p.2 := by
    intro p hp ht s
    obtain ⟨f1, f2, f3, f4, _⟩ := placeholder_ends p.1 ht p hp
    exact strings.not_infix_Replace_self p.1 p.2 f1 f2 f3 f4 s.length s (Nat.le_refl _)
  have hkeep : ∀ t ∈ placeholder_tokens, ∀ p ∈ placeholder_table, p.1 ≠ [] → ∀ s : GoString,
      ¬ t <:+: s → ¬ t <:+: strings.Replace s p.1 p.2 := by
    intro t ht p hp hp1 s hs hi
    obtain ⟨_, f2, f3, f4, _⟩ := placeholder_ends t ht p hp
    exact hs (strings.infix_of_infix_Replace_ends p.1 p.2 t hp1 f2 f3 f4 s.length s
      (Nat.le_refl _) hi)
  have hlast : ∀ t ∈ placeholder_tokens, ∀ s : GoString,
      ¬ t <:+: s → ¬ t <:+: ReplaceAllLiteralString s [] := by
    intro t ht s hs hi
    obtain ⟨_, _, _, _, f5⟩ := placeholder_ends t ht _ m1
    exact hs (infix_of_infix_ReplaceAll t f5 _ s (Nat.le_refl _) hi)
  have a1 := hself _ m1 tok_plugin_mem raw
  have a2 := hkeep _ tok_plugin_mem _ m2 (by decide) _ a1
  have a3 := hkeep _ tok_plugin_mem _ m3 (by decide) _ a2
  have b2 := hself _ m2 tok_name_mem (strings.Replace raw tok_plugin inv_plugin)
  have b3 := hkeep _ tok_name_mem _ m3 (by decide) _ b2
  have d3 := hself _ m3 tok_underscored_mem
    (strings.Replace (strings.Replace raw tok_plugin inv_plugin) tok_name inv_name)
  rw [hpre]
  refine ⟨?_, not_marker_infix_ReplaceAll _ _ (Nat.le_refl _)⟩
  intro t ht
  simp only [placeholder_tokens, List.mem_cons, List.mem_singleton, List.not_mem_nil,
    or_false] at ht
  rcases ht with e | e | e
  · rw [e]; exact hlast _ tok_plugin_mem _ a3
  · rw [e]; exact hlast _ tok_name_mem _ b3
  · rw [e]; exact hlast _ tok_underscored_mem _ d3

/-- The witness of C20: a text with the three placeholders and a marker line. -/
theorem preprocess_no_placeholder_left_witness :
    ¬ continuation <:+: "__MYPLUGIN____MYPLUGINNAME__\nx // __MYPLUGIN: __MYPLUGIN_UNDERSCORED__".toList ∧
    no_placeholder (preprocess
      "__MYPLUGIN____MYPLUGINNAME__\nx // __MYPLUGIN: __MYPLUGIN_UNDERSCORED__".toList) ∧
    ¬ marker <:+: preprocess
      "__MYPLUGIN____MYPLUGINNAME__\nx // __MYPLUGIN: __MYPLUGIN_UNDERSCORED__".toList :=
  ⟨by decide,
    (preprocess_no_placeholder_left
      "__MYPLUGIN____MYPLUGINNAME__\nx // __MYPLUGIN: __MYPLUGIN_UNDERSCORED__".toList
      (by decide)).1⟩

/-! ## Lemmas on `path.Clean` -/

namespace path

end path

namespace path

end path

namespace path

end path

namespace path

end path

namespace path

end path

namespace path

end path

namespace path

end path
/-! ## The filesystem part of `apply_source` -/

theorem FS.node_slash (fs : FS) : fs.node ['/'] = some (Node.dir 493) := rfl

